import Mathlib

/-!
Verification of the user-deduplication core of `src/analyze.py`.

The Python module is shallowly embedded here:

* Python `dict`s are modelled as insertion-ordered association lists
  (`List (κ × β)`), with `alookup` (lookup of the key's unique entry) and
  `aset` (update-in-place if present, append otherwise), matching Python's
  guaranteed dict semantics.
* The recursive `UnionFind.find` with path compression is modelled with an
  explicit fuel argument (`UF.findAux`); `UF.find` supplies fuel
  `parent.length + 1`, and it is proved that under the reachable-state
  invariant this fuel always suffices, so the model never returns `none`
  on reachable states.
* `pandas` prices (`paid_price`) are modelled as exact rationals, and
  Python's `round(x, 2)` as rational round-half-to-even.
* Python `set`s (`potential_pairs`) are modelled as insertion-ordered
  duplicate-free lists; only properties independent of the set's
  iteration order are proved about results computed from them.
-/

namespace Analyze

/-! ### Association lists (Python dicts) -/

/-- Lookup in an association list: value of the first entry with the key. -/
def alookup {κ β : Type} [DecidableEq κ] : List (κ × β) → κ → Option β
  | [], _ => none
  | (k, v) :: rest, x => if k = x then some v else alookup rest x

/-- Python dict assignment `m[k] = v`: update the (first) entry in place,
append a new entry at the end when the key is absent. -/
def aset {κ β : Type} [DecidableEq κ] : List (κ × β) → κ → β → List (κ × β)
  | [], k, v => [(k, v)]
  | (k', v') :: rest, k, v =>
    if k' = k then (k, v) :: rest else (k', v') :: aset rest k v

/-- Keys of an association list, in order. -/
def akeys {κ β : Type} (m : List (κ × β)) : List κ := m.map Prod.fst

section AssocLemmas

@[simp] theorem akeys_nil {κ β : Type} : akeys ([] : List (κ × β)) = [] := rfl

@[simp] theorem akeys_cons {κ β : Type} (e : κ × β) (m : List (κ × β)) :
    akeys (e :: m) = e.1 :: akeys m := rfl

theorem akeys_append {κ β : Type} (m₁ m₂ : List (κ × β)) :
    akeys (m₁ ++ m₂) = akeys m₁ ++ akeys m₂ := List.map_append _ m₁ m₂

theorem length_akeys {κ β : Type} (m : List (κ × β)) :
    (akeys m).length = m.length :=
  List.length_map m Prod.fst

variable {κ β : Type} [DecidableEq κ]

theorem alookup_eq_none {m : List (κ × β)} {x : κ} :
    alookup m x = none ↔ x ∉ akeys m := by
  induction m with
  | nil => simp [alookup]
  | cons e rest ih =>
    obtain ⟨k, v⟩ := e
    by_cases h : k = x
    · subst h
      simp [alookup]
    · rw [akeys_cons, List.mem_cons, not_or]
      simp only [alookup, if_neg h]
      rw [ih]
      constructor
      · exact fun hh => ⟨fun hx => h hx.symm, hh⟩
      · exact fun hh => hh.2

theorem alookup_isSome {m : List (κ × β)} {x : κ} :
    (alookup m x).isSome ↔ x ∈ akeys m := by
  rw [Option.isSome_iff_ne_none]
  constructor
  · intro h
    by_contra hx
    exact h (alookup_eq_none.2 hx)
  · intro h hn
    exact (alookup_eq_none.1 hn) h

theorem mem_akeys_of_alookup {m : List (κ × β)} {x : κ} {v : β}
    (h : alookup m x = some v) : x ∈ akeys m := by
  rw [← alookup_isSome, h]
  rfl

theorem alookup_mem {m : List (κ × β)} {x : κ} {v : β}
    (h : alookup m x = some v) : (x, v) ∈ m := by
  induction m with
  | nil => simp [alookup] at h
  | cons e rest ih =>
    obtain ⟨k, w⟩ := e
    by_cases hk : k = x
    · subst hk
      have hwv : some w = some v := by simpa [alookup] using h
      cases hwv
      exact List.mem_cons_self _ _
    · simp only [alookup, if_neg hk] at h
      exact List.mem_cons_of_mem _ (ih h)

theorem mem_alookup {m : List (κ × β)} {x : κ} {v : β}
    (hnd : (akeys m).Nodup) (h : (x, v) ∈ m) : alookup m x = some v := by
  induction m with
  | nil => simp at h
  | cons e rest ih =>
    obtain ⟨k, w⟩ := e
    rw [akeys_cons, List.nodup_cons] at hnd
    rcases List.mem_cons.1 h with h1 | h1
    · cases h1
      simp [alookup]
    · have hkx : ¬(k = x) := by
        intro hkx
        have hx : x ∈ akeys rest := List.mem_map_of_mem Prod.fst h1
        rw [hkx] at hnd
        exact hnd.1 hx
      simp only [alookup, if_neg hkx]
      exact ih hnd.2 h1

theorem akeys_aset (m : List (κ × β)) (k : κ) (v : β) :
    akeys (aset m k v) = if k ∈ akeys m then akeys m else akeys m ++ [k] := by
  induction m with
  | nil => simp [aset]
  | cons e rest ih =>
    obtain ⟨k', v'⟩ := e
    by_cases h : k' = k
    · subst h
      simp [aset]
    · have h2 : ¬(k = k') := fun hh => h hh.symm
      rw [show aset ((k', v') :: rest) k v = (k', v') :: aset rest k v by
        simp [aset, h]]
      rw [akeys_cons, akeys_cons, ih]
      by_cases hm : k ∈ akeys rest
      · simp [hm, h2]
      · simp [hm, h2]

theorem akeys_aset_of_mem {m : List (κ × β)} {k : κ} (v : β)
    (h : k ∈ akeys m) : akeys (aset m k v) = akeys m := by
  simp [akeys_aset, h]

theorem alookup_aset_self (m : List (κ × β)) (k : κ) (v : β) :
    alookup (aset m k v) k = some v := by
  induction m with
  | nil => simp [aset, alookup]
  | cons e rest ih =>
    obtain ⟨k', v'⟩ := e
    by_cases h : k' = k
    · subst h
      simp [aset, alookup]
    · simp [aset, alookup, h, ih]

theorem alookup_aset_ne (m : List (κ × β)) {k x : κ} (v : β) (h : k ≠ x) :
    alookup (aset m k v) x = alookup m x := by
  induction m with
  | nil => simp [aset, alookup, h]
  | cons e rest ih =>
    obtain ⟨k', v'⟩ := e
    by_cases h' : k' = k
    · subst h'
      simp [aset, alookup, h]
    · simp [aset, alookup, h', ih]

theorem aset_nodupKeys {m : List (κ × β)} {k : κ} {v : β}
    (h : (akeys m).Nodup) : (akeys (aset m k v)).Nodup := by
  rw [akeys_aset]
  by_cases hm : k ∈ akeys m
  · rwa [if_pos hm]
  · rw [if_neg hm]
    refine h.append (List.nodup_singleton k) ?_
    intro a ha hak
    rw [List.mem_singleton] at hak
    exact hm (hak ▸ ha)

theorem aset_of_not_mem {m : List (κ × β)} {k : κ} (v : β)
    (h : k ∉ akeys m) : aset m k v = m ++ [(k, v)] := by
  induction m with
  | nil => simp [aset]
  | cons e rest ih =>
    obtain ⟨k', v'⟩ := e
    rw [akeys_cons, List.mem_cons, not_or] at h
    have hne : ¬(k' = k) := fun hh => h.1 hh.symm
    simp [aset, hne, ih h.2]

theorem length_aset (m : List (κ × β)) (k : κ) (v : β) :
    (aset m k v).length = if k ∈ akeys m then m.length else m.length + 1 := by
  have h := congrArg List.length (akeys_aset m k v)
  rw [length_akeys] at h
  by_cases hm : k ∈ akeys m
  · rw [if_pos hm] at h
    rw [if_pos hm, h, length_akeys]
  · rw [if_neg hm] at h
    rw [if_neg hm, h, List.length_append, length_akeys, List.length_singleton]

theorem aset_ne_nil (m : List (κ × β)) (k : κ) (v : β) : aset m k v ≠ [] := by
  cases m with
  | nil => simp [aset]
  | cons e rest =>
    obtain ⟨k', v'⟩ := e
    by_cases h : k' = k <;> simp [aset, h]

end AssocLemmas

end Analyze

namespace Analyze

/-! ### Parent-map root chasing

`UnionFind.find` in `analyze.py` recursively follows `self.parent` links.
We model the pure chain-following (without compression) by `rootN`/`rootp`,
and state the structure invariant `ParentWF` corresponding to the spec's
"the structure never contains a cycle other than a root's self-loop". -/

/-- One step of parent chasing: `parent[x]`, treating an absent key as a
fixpoint (reachable states never follow an absent key). -/
def pstep (m : List (Nat × Nat)) (x : Nat) : Nat := (alookup m x).getD x

/-- `x` is a root: the parent link does not move it. -/
def isRoot (m : List (Nat × Nat)) (x : Nat) : Prop := pstep m x = x

instance (m : List (Nat × Nat)) (x : Nat) : Decidable (isRoot m x) := by
  unfold isRoot
  infer_instance

/-- Fuel-bounded parent chasing. -/
def rootN : Nat → List (Nat × Nat) → Nat → Nat
  | 0, _, x => x
  | n + 1, m, x => if pstep m x = x then x else rootN n m (pstep m x)

/-- The root of `x`'s parent chain; fuel `m.length` suffices on maps
satisfying `ParentWF`. -/
def rootp (m : List (Nat × Nat)) (x : Nat) : Nat := rootN m.length m x

/-- Well-formedness of the parent map: keys are unique, parent pointers
stay inside the key set, and there is no cycle apart from a root's
self-loop (witnessed by a height function strictly decreasing along
non-trivial parent links). -/
structure ParentWF (m : List (Nat × Nat)) : Prop where
  nodup : (akeys m).Nodup
  closed : ∀ e ∈ m, e.2 ∈ akeys m
  acyc : ∃ h : Nat → Nat, ∀ e ∈ m, e.2 = e.1 ∨ h e.2 < h e.1

@[simp] theorem rootN_zero (m : List (Nat × Nat)) (x : Nat) :
    rootN 0 m x = x := rfl

theorem rootN_succ (n : Nat) (m : List (Nat × Nat)) (x : Nat) :
    rootN (n + 1) m x = if pstep m x = x then x else rootN n m (pstep m x) :=
  rfl

theorem rootN_of_isRoot {m : List (Nat × Nat)} {x : Nat} (h : isRoot m x) :
    ∀ n, rootN n m x = x
  | 0 => rfl
  | n + 1 => by rw [rootN_succ, if_pos (show pstep m x = x from h)]

theorem rootN_add (a b : Nat) (m : List (Nat × Nat)) (x : Nat) :
    rootN (a + b) m x = rootN b m (rootN a m x) := by
  induction a generalizing x with
  | zero => rw [Nat.zero_add, rootN_zero]
  | succ a ih =>
    have e1 : a + 1 + b = (a + b) + 1 := by omega
    rw [e1, rootN_succ, rootN_succ a m x]
    by_cases hr : pstep m x = x
    · rw [if_pos hr, if_pos hr, rootN_of_isRoot hr]
    · rw [if_neg hr, if_neg hr, ih]

theorem rootN_le_stable {m : List (Nat × Nat)} {x : Nat} {n : Nat}
    (h : isRoot m (rootN n m x)) : ∀ k, n ≤ k → rootN k m x = rootN n m x := by
  intro k hk
  have e1 : k = n + (k - n) := by omega
  rw [e1, rootN_add, rootN_of_isRoot h]

theorem pstep_lookup {m : List (Nat × Nat)} {x : Nat} (h : ¬ isRoot m x) :
    alookup m x = some (pstep m x) := by
  cases hl : alookup m x with
  | none =>
    exfalso
    apply h
    show pstep m x = x
    unfold pstep
    rw [hl]
    rfl
  | some p =>
    show some p = some (pstep m x)
    unfold pstep
    rw [hl]
    rfl

theorem not_isRoot_mem {m : List (Nat × Nat)} {x : Nat} (h : ¬ isRoot m x) :
    x ∈ akeys m :=
  mem_akeys_of_alookup (pstep_lookup h)

theorem isRoot_of_not_mem {m : List (Nat × Nat)} {x : Nat}
    (h : x ∉ akeys m) : isRoot m x := by
  unfold isRoot pstep
  rw [alookup_eq_none.2 h]
  rfl

theorem pstep_mem {m : List (Nat × Nat)} {x : Nat} (hwf : ParentWF m)
    (h : ¬ isRoot m x) : pstep m x ∈ akeys m :=
  hwf.closed _ (alookup_mem (pstep_lookup h))

theorem height_lt {m : List (Nat × Nat)} {x : Nat} {h : Nat → Nat}
    (hh : ∀ e ∈ m, e.2 = e.1 ∨ h e.2 < h e.1) (hx : ¬ isRoot m x) :
    h (pstep m x) < h x := by
  rcases hh _ (alookup_mem (pstep_lookup hx)) with h1 | h1
  · exact absurd h1 hx
  · exact h1

theorem reach_of_mem {m : List (Nat × Nat)} (hwf : ParentWF m) :
    ∀ x ∈ akeys m, ∃ n, n < m.length ∧ isRoot m (rootN n m x) := by
  obtain ⟨h, hh⟩ := hwf.acyc
  suffices H : ∀ N x, x ∈ akeys m →
      ((akeys m).toFinset.filter (fun k => h k < h x)).card ≤ N →
      ∃ n, n ≤ ((akeys m).toFinset.filter (fun k => h k < h x)).card ∧
        isRoot m (rootN n m x) by
    intro x hx
    obtain ⟨n, hn1, hn2⟩ := H _ x hx le_rfl
    refine ⟨n, ?_, hn2⟩
    have hss : (akeys m).toFinset.filter (fun k => h k < h x) ⊂
        (akeys m).toFinset := by
      rw [Finset.ssubset_iff_of_subset (Finset.filter_subset _ _)]
      exact ⟨x, by simpa using hx, by simp⟩
    calc n ≤ _ := hn1
      _ < (akeys m).toFinset.card := Finset.card_lt_card hss
      _ ≤ (akeys m).length := (akeys m).toFinset_card_le
      _ = m.length := length_akeys m
  intro N
  induction N with
  | zero =>
    intro x hx hcard
    by_cases hr : isRoot m x
    · exact ⟨0, Nat.zero_le _, hr⟩
    · exfalso
      have hp : pstep m x ∈ akeys m := pstep_mem hwf hr
      have hlt : h (pstep m x) < h x := height_lt hh hr
      have hmem : pstep m x ∈
          (akeys m).toFinset.filter (fun k => h k < h x) := by
        simp [hp, hlt]
      have := Finset.card_pos.2 ⟨_, hmem⟩
      omega
  | succ N ih =>
    intro x hx hcard
    by_cases hr : isRoot m x
    · exact ⟨0, Nat.zero_le _, hr⟩
    · have hp : pstep m x ∈ akeys m := pstep_mem hwf hr
      have hlt : h (pstep m x) < h x := height_lt hh hr
      have hsub : (akeys m).toFinset.filter (fun k => h k < h (pstep m x)) ⊆
          (akeys m).toFinset.filter (fun k => h k < h x) := by
        intro a ha
        simp only [Finset.mem_filter] at ha ⊢
        exact ⟨ha.1, lt_trans ha.2 hlt⟩
      have hss : (akeys m).toFinset.filter (fun k => h k < h (pstep m x)) ⊂
          (akeys m).toFinset.filter (fun k => h k < h x) := by
        rw [Finset.ssubset_iff_of_subset hsub]
        exact ⟨pstep m x, by simp [hp, hlt], by simp⟩
      have hlt2 := Finset.card_lt_card hss
      obtain ⟨n, hn1, hn2⟩ := ih (pstep m x) hp (by omega)
      refine ⟨n + 1, by omega, ?_⟩
      rw [rootN_succ, if_neg (show ¬ pstep m x = x from hr)]
      exact hn2

theorem reach_ex {m : List (Nat × Nat)} (hwf : ParentWF m) (x : Nat) :
    ∃ n, isRoot m (rootN n m x) := by
  by_cases hx : x ∈ akeys m
  · obtain ⟨n, _, hn⟩ := reach_of_mem hwf x hx
    exact ⟨n, hn⟩
  · exact ⟨0, isRoot_of_not_mem hx⟩

theorem reach {m : List (Nat × Nat)} (hwf : ParentWF m) (x : Nat) :
    ∃ n, n ≤ m.length ∧ isRoot m (rootN n m x) := by
  by_cases hx : x ∈ akeys m
  · obtain ⟨n, hn1, hn2⟩ := reach_of_mem hwf x hx
    exact ⟨n, le_of_lt hn1, hn2⟩
  · exact ⟨0, Nat.zero_le _, isRoot_of_not_mem hx⟩

theorem rootp_of_isRoot {m : List (Nat × Nat)} {x : Nat} (h : isRoot m x) :
    rootp m x = x :=
  rootN_of_isRoot h _

theorem isRoot_rootp {m : List (Nat × Nat)} (hwf : ParentWF m) (x : Nat) :
    isRoot m (rootp m x) := by
  obtain ⟨n, hn, hr⟩ := reach hwf x
  have h1 : rootp m x = rootN n m x := rootN_le_stable hr _ hn
  rw [h1]
  exact hr

theorem rootN_eq_rootp {m : List (Nat × Nat)} (hwf : ParentWF m) {k : Nat}
    (hk : m.length ≤ k) (x : Nat) : rootN k m x = rootp m x := by
  obtain ⟨n, hn, hr⟩ := reach hwf x
  have h1 : rootp m x = rootN n m x := rootN_le_stable hr _ hn
  rw [h1]
  exact rootN_le_stable hr _ (le_trans hn hk)

theorem rootp_idem {m : List (Nat × Nat)} (hwf : ParentWF m) (x : Nat) :
    rootp m (rootp m x) = rootp m x :=
  rootp_of_isRoot (isRoot_rootp hwf x)

theorem rootp_of_not_mem {m : List (Nat × Nat)} {x : Nat}
    (h : x ∉ akeys m) : rootp m x = x :=
  rootp_of_isRoot (isRoot_of_not_mem h)

theorem rootN_mem {m : List (Nat × Nat)} (hwf : ParentWF m) :
    ∀ n x, x ∈ akeys m → rootN n m x ∈ akeys m
  | 0, _, hx => hx
  | n + 1, x, hx => by
    rw [rootN_succ]
    by_cases hr : pstep m x = x
    · rwa [if_pos hr]
    · rw [if_neg hr]
      exact rootN_mem hwf n _ (pstep_mem hwf hr)

theorem rootp_mem {m : List (Nat × Nat)} (hwf : ParentWF m) {x : Nat}
    (hx : x ∈ akeys m) : rootp m x ∈ akeys m :=
  rootN_mem hwf _ _ hx

theorem rootp_pstep {m : List (Nat × Nat)} {x : Nat} (hwf : ParentWF m)
    (h : ¬ isRoot m x) : rootp m (pstep m x) = rootp m x := by
  have hxk : x ∈ akeys m := not_isRoot_mem h
  have hpk : pstep m x ∈ akeys m := pstep_mem hwf h
  obtain ⟨n, hn, hr⟩ := reach_of_mem hwf _ hpk
  have hm : m ≠ [] := by
    rintro rfl
    simp at hxk
  have hlen : 1 ≤ m.length := List.length_pos.2 hm
  have e1 : rootp m x = rootN (m.length - 1) m (pstep m x) := by
    show rootN m.length m x = _
    have e2 : m.length = (m.length - 1) + 1 := by omega
    nth_rewrite 1 [e2]
    rw [rootN_succ, if_neg (show ¬ pstep m x = x from h)]
  rw [e1]
  have g1 : rootN (m.length - 1) m (pstep m x) = rootN n m (pstep m x) :=
    rootN_le_stable hr _ (by omega)
  have g2 : rootp m (pstep m x) = rootN n m (pstep m x) :=
    rootN_le_stable hr _ (le_of_lt hn)
  rw [g1, g2]

/-- Distance to the root, defined as the least sufficient fuel. -/
def dist {m : List (Nat × Nat)} (hwf : ParentWF m) (x : Nat) : Nat :=
  Nat.find (reach_ex hwf x)

theorem dist_spec {m : List (Nat × Nat)} (hwf : ParentWF m) (x : Nat) :
    isRoot m (rootN (dist hwf x) m x) :=
  Nat.find_spec (reach_ex hwf x)

theorem dist_le {m : List (Nat × Nat)} (hwf : ParentWF m) {x n : Nat}
    (h : isRoot m (rootN n m x)) : dist hwf x ≤ n :=
  Nat.find_min' (reach_ex hwf x) h

theorem dist_pos {m : List (Nat × Nat)} (hwf : ParentWF m) {x : Nat}
    (h : ¬ isRoot m x) : 0 < dist hwf x := by
  rcases Nat.eq_zero_or_pos (dist hwf x) with h0 | h0
  · exfalso
    have := dist_spec hwf x
    rw [h0] at this
    exact h this
  · exact h0

theorem dist_eq_zero {m : List (Nat × Nat)} (hwf : ParentWF m) {x : Nat}
    (h : dist hwf x = 0) : isRoot m x := by
  have := dist_spec hwf x
  rwa [h] at this

theorem dist_pstep {m : List (Nat × Nat)} (hwf : ParentWF m) {x : Nat}
    (h : ¬ isRoot m x) : dist hwf (pstep m x) < dist hwf x := by
  have hpos := dist_pos hwf h
  have hs := dist_spec hwf x
  have e1 : dist hwf x = (dist hwf x - 1) + 1 := by omega
  rw [e1, rootN_succ, if_neg (show ¬ pstep m x = x from h)] at hs
  have := dist_le hwf hs
  omega

/-- Generic transfer: if every root of `m'` is already `rootp`-stable in
`m` and every non-trivial `m'`-edge jumps inside the `m`-tree, both maps
compute the same roots. -/
theorem rootp_eq_of {m m' : List (Nat × Nat)} (hwf' : ParentWF m')
    (H1 : ∀ z, isRoot m' z → rootp m z = z)
    (H2 : ∀ z, ¬ isRoot m' z → rootp m (pstep m' z) = rootp m z) :
    ∀ z, rootp m' z = rootp m z := by
  suffices H : ∀ N z, dist hwf' z ≤ N → rootp m' z = rootp m z by
    intro z
    exact H (dist hwf' z) z le_rfl
  intro N
  induction N with
  | zero =>
    intro z hz
    have hr : isRoot m' z := dist_eq_zero hwf' (by omega)
    rw [rootp_of_isRoot hr, H1 z hr]
  | succ N ih =>
    intro z hz
    by_cases hr : isRoot m' z
    · rw [rootp_of_isRoot hr, H1 z hr]
    · have h1 : rootp m' z = rootp m' (pstep m' z) := (rootp_pstep hwf' hr).symm
      have h2 : dist hwf' (pstep m' z) ≤ N := by
        have := dist_pstep hwf' hr
        omega
      rw [h1, ih _ h2, H2 z hr]

end Analyze

namespace Analyze

/-! ### Effect of single map updates on roots -/

theorem alookup_append_of_mem {κ β : Type} [DecidableEq κ]
    {m₁ : List (κ × β)} (m₂ : List (κ × β)) {x : κ} (h : x ∈ akeys m₁) :
    alookup (m₁ ++ m₂) x = alookup m₁ x := by
  induction m₁ with
  | nil => simp at h
  | cons e rest ih =>
    obtain ⟨k, v⟩ := e
    by_cases hk : k = x
    · simp [alookup, hk]
    · rw [akeys_cons, List.mem_cons] at h
      rcases h with h | h
      · exact absurd h.symm hk
      · simp [alookup, hk, ih h]

theorem alookup_append_of_not_mem {κ β : Type} [DecidableEq κ]
    {m₁ : List (κ × β)} (m₂ : List (κ × β)) {x : κ} (h : x ∉ akeys m₁) :
    alookup (m₁ ++ m₂) x = alookup m₂ x := by
  induction m₁ with
  | nil => rfl
  | cons e rest ih =>
    obtain ⟨k, v⟩ := e
    rw [akeys_cons, List.mem_cons, not_or] at h
    have hk : ¬(k = x) := fun hh => h.1 hh.symm
    simp only [List.cons_append, alookup, if_neg hk]
    exact ih h.2

theorem mem_aset_of_nodup {κ β : Type} [DecidableEq κ] {m : List (κ × β)}
    (hnd : (akeys m).Nodup) {k : κ} {v : β} :
    ∀ e ∈ aset m k v, e = (k, v) ∨ (e ∈ m ∧ e.1 ≠ k) := by
  induction m with
  | nil =>
    intro e he
    rw [show aset ([] : List (κ × β)) k v = [(k, v)] from rfl] at he
    left
    simpa using he
  | cons e' rest ih =>
    obtain ⟨k', v'⟩ := e'
    rw [akeys_cons, List.nodup_cons] at hnd
    intro e he
    by_cases h : k' = k
    · subst h
      simp only [aset, if_pos rfl] at he
      rcases List.mem_cons.1 he with h1 | h1
      · left; exact h1
      · right
        refine ⟨List.mem_cons_of_mem _ h1, ?_⟩
        intro hek
        have hmem : e.1 ∈ akeys rest := List.mem_map_of_mem Prod.fst h1
        rw [hek] at hmem
        exact hnd.1 hmem
    · simp only [aset, if_neg h] at he
      rcases List.mem_cons.1 he with h1 | h1
      · subst h1
        right
        exact ⟨List.mem_cons_self _ _, h⟩
      · rcases ih hnd.2 e h1 with h2 | h2
        · left; exact h2
        · right; exact ⟨List.mem_cons_of_mem _ h2.1, h2.2⟩

theorem rootN_congr {m m' : List (Nat × Nat)}
    (h : ∀ z, pstep m' z = pstep m z) :
    ∀ n z, rootN n m' z = rootN n m z
  | 0, _ => rfl
  | n + 1, z => by
    rw [rootN_succ, rootN_succ, h z]
    by_cases hr : pstep m z = z
    · rw [if_pos hr, if_pos hr]
    · rw [if_neg hr, if_neg hr, rootN_congr h n _]

theorem pstep_append_self {m : List (Nat × Nat)} {x : Nat} :
    ∀ z, pstep (m ++ [(x, x)]) z = pstep m z := by
  intro z
  by_cases hz : z ∈ akeys m
  · unfold pstep
    rw [alookup_append_of_mem _ hz]
  · unfold pstep
    rw [alookup_append_of_not_mem _ hz, alookup_eq_none.2 hz]
    by_cases hzx : x = z
    · subst hzx
      simp [alookup]
    · simp [alookup, hzx]

theorem parentWF_extend {m : List (Nat × Nat)} {x : Nat} (hwf : ParentWF m)
    (hx : x ∉ akeys m) : ParentWF (m ++ [(x, x)]) := by
  constructor
  · rw [akeys_append]
    refine hwf.nodup.append (List.nodup_singleton x) ?_
    intro z hz hzx
    rw [show akeys [(x, x)] = [x] from rfl, List.mem_singleton] at hzx
    exact hx (hzx ▸ hz)
  · intro e he
    rw [akeys_append]
    rcases List.mem_append.1 he with h | h
    · exact List.mem_append_left _ (hwf.closed e h)
    · rw [List.mem_singleton] at h
      subst h
      simp
  · obtain ⟨h, hh⟩ := hwf.acyc
    refine ⟨h, ?_⟩
    intro e he
    rcases List.mem_append.1 he with h1 | h1
    · exact hh e h1
    · rw [List.mem_singleton] at h1
      subst h1
      left
      rfl

theorem rootp_append_self {m : List (Nat × Nat)} (hwf : ParentWF m) (x : Nat) :
    ∀ z, rootp (m ++ [(x, x)]) z = rootp m z := by
  intro z
  show rootN (m ++ [(x, x)]).length _ z = _
  rw [rootN_congr pstep_append_self _ z]
  exact rootN_eq_rootp hwf (by simp) z

theorem dist_of_isRoot {m : List (Nat × Nat)} (hwf : ParentWF m) {z : Nat}
    (h : isRoot m z) : dist hwf z = 0 :=
  Nat.le_zero.1 (dist_le hwf (show isRoot m (rootN 0 m z) from h))

theorem pstep_of_mem_pair {m : List (Nat × Nat)} (hnd : (akeys m).Nodup)
    {e : Nat × Nat} (he : e ∈ m) : pstep m e.1 = e.2 := by
  have hl : alookup m e.1 = some e.2 := mem_alookup hnd he
  unfold pstep
  rw [hl]
  rfl

theorem parentWF_compress {m : List (Nat × Nat)} {x r : Nat} (hwf : ParentWF m)
    (hx : x ∈ akeys m) (hr : rootp m x = r) : ParentWF (aset m x r) := by
  constructor
  · exact aset_nodupKeys hwf.nodup
  · intro e he
    rw [akeys_aset_of_mem _ hx]
    rcases mem_aset_of_nodup hwf.nodup e he with h1 | h1
    · rw [h1]
      exact hr ▸ rootp_mem hwf hx
    · exact hwf.closed e h1.1
  · refine ⟨dist hwf, ?_⟩
    intro e he
    rcases mem_aset_of_nodup hwf.nodup e he with h1 | h1
    · have he1 : e.1 = x := by rw [h1]
      have he2 : e.2 = r := by rw [h1]
      rw [he1, he2]
      by_cases hrx : r = x
      · left; exact hrx
      · right
        have hnr : ¬ isRoot m x := by
          intro hroot
          apply hrx
          rw [← hr, rootp_of_isRoot hroot]
        have hd0 : dist hwf r = 0 :=
          dist_of_isRoot hwf (hr ▸ isRoot_rootp hwf x)
        have := dist_pos hwf hnr
        omega
    · have hps : pstep m e.1 = e.2 := pstep_of_mem_pair hwf.nodup h1.1
      by_cases hroot : isRoot m e.1
      · left
        rw [← hps]
        exact hroot
      · right
        rw [← hps]
        exact dist_pstep hwf hroot

theorem rootp_compress {m : List (Nat × Nat)} {x r : Nat} (hwf : ParentWF m)
    (hx : x ∈ akeys m) (hr : rootp m x = r) :
    ∀ z, rootp (aset m x r) z = rootp m z := by
  have hwf' := parentWF_compress hwf hx hr
  have hpsx : pstep (aset m x r) x = r := by
    unfold pstep
    rw [alookup_aset_self]
    rfl
  have hpsne : ∀ z, z ≠ x → pstep (aset m x r) z = pstep m z := by
    intro z hz
    unfold pstep
    rw [alookup_aset_ne _ _ (fun hh => hz hh.symm)]
  apply rootp_eq_of hwf'
  · intro z hz
    by_cases hzx : z = x
    · rw [hzx] at hz ⊢
      have hrx : r = x := by
        rw [← hpsx]
        exact hz
      rw [hr, hrx]
    · have hz2 : isRoot m z := by
        show pstep m z = z
        rw [← hpsne z hzx]
        exact hz
      exact rootp_of_isRoot hz2
  · intro z hz
    by_cases hzx : z = x
    · rw [hzx, hpsx, ← hr]
      exact rootp_idem hwf x
    · have hz2 : ¬ isRoot m z := by
        intro hroot
        apply hz
        show pstep (aset m x r) z = z
        rw [hpsne z hzx]
        exact hroot
      rw [hpsne z hzx]
      exact rootp_pstep hwf hz2

theorem parentWF_link {m : List (Nat × Nat)} {a b : Nat} (hwf : ParentWF m)
    (ha : isRoot m a) (hb : isRoot m b) (hab : a ≠ b)
    (hak : a ∈ akeys m) (hbk : b ∈ akeys m) : ParentWF (aset m b a) := by
  constructor
  · exact aset_nodupKeys hwf.nodup
  · intro e he
    rw [akeys_aset_of_mem _ hbk]
    rcases mem_aset_of_nodup hwf.nodup e he with h1 | h1
    · rw [h1]
      exact hak
    · exact hwf.closed e h1.1
  · refine ⟨fun z => if rootp m z = b then dist hwf z + 1 else dist hwf z, ?_⟩
    intro e he
    show e.2 = e.1 ∨
      (if rootp m e.2 = b then dist hwf e.2 + 1 else dist hwf e.2) <
        (if rootp m e.1 = b then dist hwf e.1 + 1 else dist hwf e.1)
    rcases mem_aset_of_nodup hwf.nodup e he with h1 | h1
    · have he1 : e.1 = b := by rw [h1]
      have he2 : e.2 = a := by rw [h1]
      rw [he1, he2]
      right
      rw [if_neg (by rw [rootp_of_isRoot ha]; exact hab),
        if_pos (by rw [rootp_of_isRoot hb]),
        dist_of_isRoot hwf ha]
      omega
    · have hps : pstep m e.1 = e.2 := pstep_of_mem_pair hwf.nodup h1.1
      by_cases hroot : isRoot m e.1
      · left
        rw [← hps]
        exact hroot
      · right
        have hsame : rootp m e.2 = rootp m e.1 := by
          rw [← hps]
          exact rootp_pstep hwf hroot
        have hd : dist hwf e.2 < dist hwf e.1 := by
          rw [← hps]
          exact dist_pstep hwf hroot
        by_cases hrb : rootp m e.1 = b
        · rw [if_pos (by rw [hsame]; exact hrb), if_pos hrb]
          omega
        · rw [if_neg (by rw [hsame]; exact hrb), if_neg hrb]
          exact hd

theorem rootp_link {m : List (Nat × Nat)} {a b : Nat} (hwf : ParentWF m)
    (ha : isRoot m a) (hb : isRoot m b) (hab : a ≠ b)
    (hak : a ∈ akeys m) (hbk : b ∈ akeys m) :
    ∀ z, rootp (aset m b a) z = if rootp m z = b then a else rootp m z := by
  have hwf' := parentWF_link hwf ha hb hab hak hbk
  have hpsb : pstep (aset m b a) b = a := by
    unfold pstep
    rw [alookup_aset_self]
    rfl
  have hpsne : ∀ z, z ≠ b → pstep (aset m b a) z = pstep m z := by
    intro z hz
    unfold pstep
    rw [alookup_aset_ne _ _ (fun hh => hz hh.symm)]
  have base : ∀ z, isRoot (aset m b a) z →
      rootp (aset m b a) z = if rootp m z = b then a else rootp m z := by
    intro z hz
    have hzb : z ≠ b := by
      intro hzb
      rw [hzb] at hz
      have hba : a = b := by
        rw [← hpsb]
        exact hz
      exact hab hba
    have hz2 : isRoot m z := by
      show pstep m z = z
      rw [← hpsne z hzb]
      exact hz
    rw [rootp_of_isRoot hz, rootp_of_isRoot hz2, if_neg hzb]
  suffices H : ∀ N z, dist hwf' z ≤ N →
      rootp (aset m b a) z = if rootp m z = b then a else rootp m z by
    intro z
    exact H _ z le_rfl
  intro N
  induction N with
  | zero =>
    intro z hz
    exact base z (dist_eq_zero hwf' (by omega))
  | succ N ih =>
    intro z hz
    by_cases hr : isRoot (aset m b a) z
    · exact base z hr
    · have h1 : rootp (aset m b a) z =
          rootp (aset m b a) (pstep (aset m b a) z) :=
        (rootp_pstep hwf' hr).symm
      have h2 : dist hwf' (pstep (aset m b a) z) ≤ N := by
        have := dist_pstep hwf' hr
        omega
      rw [h1, ih _ h2]
      by_cases hzb : z = b
      · rw [hzb, hpsb]
        rw [if_neg (by rw [rootp_of_isRoot ha]; exact hab),
          if_pos (by rw [rootp_of_isRoot hb]), rootp_of_isRoot ha]
      · rw [hpsne z hzb]
        have hz2 : ¬ isRoot m z := by
          intro hroot
          apply hr
          show pstep (aset m b a) z = z
          rw [hpsne z hzb]
          exact hroot
        rw [rootp_pstep hwf hz2]

end Analyze

namespace Analyze

/-! ### The `UnionFind` class of `analyze.py` -/

/-- State of a `UnionFind` instance: the `self.parent` and `self.rank`
dicts. -/
structure UF where
  parent : List (Nat × Nat)
  rank : List (Nat × Nat)
deriving DecidableEq

/-- `UnionFind.__init__`: empty parent and rank dicts. -/
def UF.empty : UF := ⟨[], []⟩

/-- `UnionFind.find` with explicit fuel for the recursion:
if `x` is unseen, initialize `parent[x] = x, rank[x] = 0`;
if `parent[x] != x`, recursively find the root and point `x` at it
(path compression); return `parent[x]`. -/
def UF.findAux : Nat → UF → Nat → Option (UF × Nat)
  | 0, _, _ => none
  | fuel + 1, uf, x =>
    match alookup uf.parent x with
    | none => some (⟨aset uf.parent x x, aset uf.rank x 0⟩, x)
    | some p =>
      if p = x then some (uf, x)
      else
        match UF.findAux fuel uf p with
        | none => none
        | some (uf', r) => some (⟨aset uf'.parent x r, uf'.rank⟩, r)

/-- `UnionFind.find`; fuel `parent.length + 1` is proved sufficient on
well-formed states. -/
def UF.find (uf : UF) (x : Nat) : Option (UF × Nat) :=
  UF.findAux (uf.parent.length + 1) uf x

/-- `UnionFind.union`: find both roots; if equal do nothing, otherwise
attach the lower-rank root under the higher-rank root (ties attach the
second root under the first and bump its rank). -/
def UF.union (uf : UF) (x y : Nat) : Option UF :=
  match uf.find x with
  | none => none
  | some (uf1, rx) =>
    match uf1.find y with
    | none => none
    | some (uf2, ry) =>
      if rx = ry then some uf2
      else
        match alookup uf2.rank rx, alookup uf2.rank ry with
        | some kx, some ky =>
          if kx < ky then
            some ⟨aset uf2.parent rx ry,
              if ky = kx then aset uf2.rank ry (ky + 1) else uf2.rank⟩
          else
            some ⟨aset uf2.parent ry rx,
              if kx = ky then aset uf2.rank rx (kx + 1) else uf2.rank⟩
        | _, _ => none

/-- Invariant of reachable `UnionFind` states: the parent map is
well-formed and every parent key has a rank entry. -/
structure UFWF (uf : UF) : Prop where
  pwf : ParentWF uf.parent
  rankdom : ∀ k ∈ akeys uf.parent, k ∈ akeys uf.rank

theorem ufwf_empty : UFWF UF.empty := by
  constructor
  · constructor
    · simp [UF.empty]
    · intro e he
      simp [UF.empty] at he
    · exact ⟨fun _ => 0, fun e he => by simp [UF.empty] at he⟩
  · intro k hk
    simp [UF.empty] at hk

theorem mem_akeys_aset {κ β : Type} [DecidableEq κ] {m : List (κ × β)}
    {k z : κ} (v : β) : z ∈ akeys (aset m k v) ↔ z ∈ akeys m ∨ z = k := by
  rw [akeys_aset]
  by_cases hm : k ∈ akeys m
  · rw [if_pos hm]
    constructor
    · exact Or.inl
    · rintro (h | h)
      · exact h
      · rw [h]; exact hm
  · rw [if_neg hm, List.mem_append, List.mem_singleton]

theorem findAux_spec_mem {uf : UF} (hwf : ParentWF uf.parent) :
    ∀ fuel x, x ∈ akeys uf.parent → dist hwf x < fuel →
    ∃ p', UF.findAux fuel uf x = some (⟨p', uf.rank⟩, rootp uf.parent x) ∧
      akeys p' = akeys uf.parent ∧ ParentWF p' ∧
      (∀ z, rootp p' z = rootp uf.parent z) := by
  intro fuel
  induction fuel with
  | zero =>
    intro x hx hd
    omega
  | succ fuel ih =>
    intro x hx hd
    have hl : (alookup uf.parent x).isSome := alookup_isSome.2 hx
    cases hlk : alookup uf.parent x with
    | none =>
      rw [hlk] at hl
      simp at hl
    | some p =>
      have hps : pstep uf.parent x = p := by
        unfold pstep
        rw [hlk]
        rfl
      by_cases hpx : p = x
      · have hroot : isRoot uf.parent x := by
          show pstep uf.parent x = x
          rw [hps, hpx]
        refine ⟨uf.parent, ?_, rfl, hwf, fun z => rfl⟩
        rw [rootp_of_isRoot hroot]
        simp [UF.findAux, hlk, hpx]
      · have hroot : ¬ isRoot uf.parent x := fun hr => hpx (by rw [← hps]; exact hr)
        have hpk : p ∈ akeys uf.parent := by
          rw [← hps]
          exact pstep_mem hwf hroot
        have hdp : dist hwf p < fuel := by
          have hdlt := dist_pstep hwf hroot
          rw [hps] at hdlt
          omega
        obtain ⟨p', heq, hkeys, hwf', hroots⟩ := ih p hpk hdp
        have hrx : rootp uf.parent p = rootp uf.parent x := by
          rw [← hps]
          exact rootp_pstep hwf hroot
        have hxp' : x ∈ akeys p' := by
          rw [hkeys]
          exact hx
        have hrp' : rootp p' x = rootp uf.parent x := by
          rw [hroots x]
        refine ⟨aset p' x (rootp uf.parent x), ?_, ?_, ?_, ?_⟩
        · simp only [UF.findAux, hlk, if_neg hpx, heq, hrx]
        · rw [akeys_aset_of_mem _ hxp', hkeys]
        · exact parentWF_compress hwf' hxp' hrp'
        · intro z
          rw [rootp_compress hwf' hxp' hrp' z, hroots z]

theorem find_spec_mem {uf : UF} (hwf : ParentWF uf.parent) {x : Nat}
    (hx : x ∈ akeys uf.parent) :
    ∃ p', UF.find uf x = some (⟨p', uf.rank⟩, rootp uf.parent x) ∧
      akeys p' = akeys uf.parent ∧ ParentWF p' ∧
      (∀ z, rootp p' z = rootp uf.parent z) := by
  apply findAux_spec_mem hwf _ x hx
  obtain ⟨n, hn, hr⟩ := reach_of_mem hwf x hx
  have := dist_le hwf hr
  omega

theorem find_spec_new {uf : UF} {x : Nat} (hx : x ∉ akeys uf.parent) :
    UF.find uf x = some (⟨uf.parent ++ [(x, x)], aset uf.rank x 0⟩, x) := by
  show UF.findAux (uf.parent.length + 1) uf x = _
  simp only [UF.findAux, alookup_eq_none.2 hx]
  rw [aset_of_not_mem _ hx]

/-- Master specification of `find` on well-formed states: it succeeds,
returns the chain root, preserves well-formedness, grows the key set by
at most `{x}`, and changes no root. -/
theorem find_spec {uf : UF} (hwf : UFWF uf) (x : Nat) :
    ∃ uf', UF.find uf x = some (uf', rootp uf.parent x) ∧ UFWF uf' ∧
      (∀ z, z ∈ akeys uf'.parent ↔ z ∈ akeys uf.parent ∨ z = x) ∧
      (∀ z, rootp uf'.parent z = rootp uf.parent z) := by
  by_cases hx : x ∈ akeys uf.parent
  · obtain ⟨p', heq, hkeys, hwf', hroots⟩ := find_spec_mem hwf.pwf hx
    refine ⟨⟨p', uf.rank⟩, heq, ⟨hwf', ?_⟩, ?_, hroots⟩
    · intro k hk
      apply hwf.rankdom
      rw [← hkeys]
      exact hk
    · intro z
      have hzz : z ∈ akeys p' ↔ z ∈ akeys uf.parent ∨ z = x := by
        rw [hkeys]
        constructor
        · exact Or.inl
        · rintro (h | h)
          · exact h
          · rw [h]
            exact hx
      exact hzz
  · refine ⟨⟨uf.parent ++ [(x, x)], aset uf.rank x 0⟩, ?_, ?_, ?_, ?_⟩
    · rw [rootp_of_not_mem hx]
      exact find_spec_new hx
    · constructor
      · exact parentWF_extend hwf.pwf hx
      · intro k hk
        have hk2 : k ∈ akeys (uf.parent ++ [(x, x)]) := hk
        rw [akeys_append, List.mem_append] at hk2
        have goal2 : k ∈ akeys (aset uf.rank x 0) := by
          rw [mem_akeys_aset]
          rcases hk2 with h | h
          · exact Or.inl (hwf.rankdom k h)
          · right
            simpa using h
        exact goal2
    · intro z
      have hzz : z ∈ akeys (uf.parent ++ [(x, x)]) ↔
          z ∈ akeys uf.parent ∨ z = x := by
        rw [akeys_append, List.mem_append]
        simp
      exact hzz
    · intro z
      exact rootp_append_self hwf.pwf x z

end Analyze

namespace Analyze

/-- Master specification of `union` on well-formed states: it succeeds,
preserves well-formedness, grows the key set by at most `{x, y}`, and
either leaves all roots unchanged (when the two roots already coincide)
or redirects exactly the tree of one of the two roots onto the other. -/
theorem union_spec {uf : UF} (hwf : UFWF uf) (x y : Nat) :
    ∃ uf', UF.union uf x y = some uf' ∧ UFWF uf' ∧
      (∀ z, z ∈ akeys uf'.parent ↔ z ∈ akeys uf.parent ∨ z = x ∨ z = y) ∧
      ∃ rX rY, ((rX = rootp uf.parent x ∧ rY = rootp uf.parent y) ∨
          (rX = rootp uf.parent y ∧ rY = rootp uf.parent x)) ∧
        (∀ z, rootp uf'.parent z =
          if rootp uf.parent z = rY then rX else rootp uf.parent z) := by
  obtain ⟨uf1, hf1, hwf1, hkeys1, hroots1⟩ := find_spec hwf x
  obtain ⟨uf2, hf2p, hwf2, hkeys2, hroots2⟩ := find_spec hwf1 y
  have hf2 : UF.find uf1 y = some (uf2, rootp uf.parent y) := by
    rw [hf2p, hroots1 y]
  have hr2x : rootp uf2.parent x = rootp uf.parent x := by
    rw [hroots2, hroots1]
  have hr2y : rootp uf2.parent y = rootp uf.parent y := by
    rw [hroots2, hroots1]
  have hx2 : x ∈ akeys uf2.parent := by
    rw [hkeys2]
    left
    rw [hkeys1]
    right
    rfl
  have hy2 : y ∈ akeys uf2.parent := by
    rw [hkeys2]
    right
    rfl
  have hisx : isRoot uf2.parent (rootp uf.parent x) := by
    have h1 := isRoot_rootp hwf2.pwf x
    rwa [hr2x] at h1
  have hisy : isRoot uf2.parent (rootp uf.parent y) := by
    have h1 := isRoot_rootp hwf2.pwf y
    rwa [hr2y] at h1
  have hxkeys : rootp uf.parent x ∈ akeys uf2.parent := by
    have h1 := rootp_mem hwf2.pwf hx2
    rwa [hr2x] at h1
  have hykeys : rootp uf.parent y ∈ akeys uf2.parent := by
    have h1 := rootp_mem hwf2.pwf hy2
    rwa [hr2y] at h1
  have hz2 : ∀ z, rootp uf2.parent z = rootp uf.parent z := by
    intro z
    rw [hroots2, hroots1]
  by_cases hreq : rootp uf.parent x = rootp uf.parent y
  · have hun : UF.union uf x y = some uf2 := by
      simp only [UF.union, hf1, hf2, if_pos hreq]
    refine ⟨uf2, hun, hwf2, ?_, ?_⟩
    · intro z
      rw [hkeys2, hkeys1]
      tauto
    · refine ⟨rootp uf.parent x, rootp uf.parent y, Or.inl ⟨rfl, rfl⟩, ?_⟩
      intro z
      rw [hz2 z]
      by_cases hz : rootp uf.parent z = rootp uf.parent y
      · rw [if_pos hz, hz, hreq]
      · rw [if_neg hz]
  · obtain ⟨kx, hkx⟩ := Option.isSome_iff_exists.1
      (alookup_isSome.2 (hwf2.rankdom _ hxkeys))
    obtain ⟨ky, hky⟩ := Option.isSome_iff_exists.1
      (alookup_isSome.2 (hwf2.rankdom _ hykeys))
    by_cases hklt : kx < ky
    · have hkk : ¬ (ky = kx) := by omega
      have hun : UF.union uf x y =
          some ⟨aset uf2.parent (rootp uf.parent x) (rootp uf.parent y),
            uf2.rank⟩ := by
        simp only [UF.union, hf1, hf2, if_neg hreq, hkx, hky, if_pos hklt,
          if_neg hkk]
      have hab : rootp uf.parent y ≠ rootp uf.parent x :=
        fun h => hreq h.symm
      have hlinkwf := parentWF_link hwf2.pwf hisy hisx hab hykeys hxkeys
      have hroots' := rootp_link hwf2.pwf hisy hisx hab hykeys hxkeys
      refine ⟨_, hun, ?_, ?_, ?_⟩
      · constructor
        · exact hlinkwf
        · intro k hk
          have hk2 : k ∈ akeys
              (aset uf2.parent (rootp uf.parent x) (rootp uf.parent y)) := hk
          rw [akeys_aset_of_mem _ hxkeys] at hk2
          exact hwf2.rankdom k hk2
      · intro z
        have hgoal : z ∈ akeys
            (aset uf2.parent (rootp uf.parent x) (rootp uf.parent y)) ↔
            z ∈ akeys uf.parent ∨ z = x ∨ z = y := by
          rw [akeys_aset_of_mem _ hxkeys, hkeys2, hkeys1]
          tauto
        exact hgoal
      · refine ⟨rootp uf.parent y, rootp uf.parent x, Or.inr ⟨rfl, rfl⟩, ?_⟩
        intro z
        have hform := hroots' z
        rw [hz2 z] at hform
        exact hform
    · by_cases hkk : kx = ky
      · have hun : UF.union uf x y =
            some ⟨aset uf2.parent (rootp uf.parent y) (rootp uf.parent x),
              aset uf2.rank (rootp uf.parent x) (kx + 1)⟩ := by
          simp only [UF.union, hf1, hf2, if_neg hreq, hkx, hky, if_neg hklt,
            if_pos hkk]
        have hab : rootp uf.parent x ≠ rootp uf.parent y := hreq
        have hlinkwf := parentWF_link hwf2.pwf hisx hisy hab hxkeys hykeys
        have hroots' := rootp_link hwf2.pwf hisx hisy hab hxkeys hykeys
        refine ⟨_, hun, ?_, ?_, ?_⟩
        · constructor
          · exact hlinkwf
          · intro k hk
            have hk2 : k ∈ akeys
                (aset uf2.parent (rootp uf.parent y) (rootp uf.parent x)) := hk
            rw [akeys_aset_of_mem _ hykeys] at hk2
            have hk3 := hwf2.rankdom k hk2
            have hk4 : k ∈ akeys
                (aset uf2.rank (rootp uf.parent x) (kx + 1)) := by
              rw [mem_akeys_aset]
              exact Or.inl hk3
            exact hk4
        · intro z
          have hgoal : z ∈ akeys
              (aset uf2.parent (rootp uf.parent y) (rootp uf.parent x)) ↔
              z ∈ akeys uf.parent ∨ z = x ∨ z = y := by
            rw [akeys_aset_of_mem _ hykeys, hkeys2, hkeys1]
            tauto
          exact hgoal
        · refine ⟨rootp uf.parent x, rootp uf.parent y, Or.inl ⟨rfl, rfl⟩, ?_⟩
          intro z
          have hform := hroots' z
          rw [hz2 z] at hform
          exact hform
      · have hun : UF.union uf x y =
            some ⟨aset uf2.parent (rootp uf.parent y) (rootp uf.parent x),
              uf2.rank⟩ := by
          simp only [UF.union, hf1, hf2, if_neg hreq, hkx, hky, if_neg hklt,
            if_neg hkk]
        have hab : rootp uf.parent x ≠ rootp uf.parent y := hreq
        have hlinkwf := parentWF_link hwf2.pwf hisx hisy hab hxkeys hykeys
        have hroots' := rootp_link hwf2.pwf hisx hisy hab hxkeys hykeys
        refine ⟨_, hun, ?_, ?_, ?_⟩
        · constructor
          · exact hlinkwf
          · intro k hk
            have hk2 : k ∈ akeys
                (aset uf2.parent (rootp uf.parent y) (rootp uf.parent x)) := hk
            rw [akeys_aset_of_mem _ hykeys] at hk2
            exact hwf2.rankdom k hk2
        · intro z
          have hgoal : z ∈ akeys
              (aset uf2.parent (rootp uf.parent y) (rootp uf.parent x)) ↔
              z ∈ akeys uf.parent ∨ z = x ∨ z = y := by
            rw [akeys_aset_of_mem _ hykeys, hkeys2, hkeys1]
            tauto
          exact hgoal
        · refine ⟨rootp uf.parent x, rootp uf.parent y, Or.inl ⟨rfl, rfl⟩, ?_⟩
          intro z
          have hform := hroots' z
          rw [hz2 z] at hform
          exact hform

end Analyze

namespace Analyze

/-! ### Operation traces over a `UnionFind` instance -/

/-- One public operation on a `UnionFind` instance. -/
inductive Op
  | findOp (x : Nat)
  | unionOp (x y : Nat)
deriving DecidableEq

/-- The identifiers an operation passes to the structure. -/
def Op.ids : Op → List Nat
  | .findOp x => [x]
  | .unionOp x y => [x, y]

/-- All identifiers passed through `find` or `union` in a trace. -/
def seenIds : List Op → List Nat
  | [] => []
  | op :: rest => op.ids ++ seenIds rest

/-- The arguments of the `union` calls of a trace, in order. -/
def unionPairs : List Op → List (Nat × Nat)
  | [] => []
  | .findOp _ :: rest => unionPairs rest
  | .unionOp x y :: rest => (x, y) :: unionPairs rest

/-- Execute one operation (`find` discards the returned root). -/
def runStep (uf : UF) : Op → Option UF
  | .findOp x => (UF.find uf x).map Prod.fst
  | .unionOp x y => UF.union uf x y

/-- Execute a trace starting from a given state. -/
def runFrom : UF → List Op → Option UF
  | uf, [] => some uf
  | uf, op :: rest =>
    match runStep uf op with
    | none => none
    | some uf' => runFrom uf' rest

/-- Execute a trace on a freshly constructed `UnionFind()`. -/
def runOps (ops : List Op) : Option UF := runFrom UF.empty ops

/-- Connectivity by a chain of union calls: the reflexive, symmetric,
transitive closure of the recorded argument pairs. -/
inductive Conn (ps : List (Nat × Nat)) : Nat → Nat → Prop
  | rel (a b : Nat) : (a, b) ∈ ps → Conn ps a b
  | refl (a : Nat) : Conn ps a a
  | symm {a b : Nat} : Conn ps a b → Conn ps b a
  | trans {a b c : Nat} : Conn ps a b → Conn ps b c → Conn ps a c

theorem conn_mono {ps ps' : List (Nat × Nat)} (hsub : ∀ p ∈ ps, p ∈ ps')
    {a b : Nat} (h : Conn ps a b) : Conn ps' a b := by
  induction h with
  | rel a b hm => exact Conn.rel a b (hsub _ hm)
  | refl a => exact Conn.refl a
  | symm _ ih => exact Conn.symm ih
  | trans _ _ ih1 ih2 => exact Conn.trans ih1 ih2

theorem conn_nil {a b : Nat} (h : Conn [] a b) : a = b := by
  induction h with
  | rel a b hm => simp at hm
  | refl a => rfl
  | symm _ ih => exact ih.symm
  | trans _ _ ih1 ih2 => exact ih1.trans ih2

theorem conn_snoc {ps : List (Nat × Nat)} {x y a b : Nat} :
    Conn (ps ++ [(x, y)]) a b ↔
      Conn ps a b ∨ (Conn ps a x ∧ Conn ps y b) ∨
        (Conn ps a y ∧ Conn ps x b) := by
  constructor
  · intro h
    induction h with
    | rel a b hm =>
      rcases List.mem_append.1 hm with h1 | h1
      · exact Or.inl (Conn.rel a b h1)
      · rw [List.mem_singleton] at h1
        have ha : a = x := congrArg Prod.fst h1
        have hb : b = y := congrArg Prod.snd h1
        subst ha
        subst hb
        exact Or.inr (Or.inl ⟨Conn.refl a, Conn.refl b⟩)
    | refl a => exact Or.inl (Conn.refl a)
    | symm _ ih =>
      rcases ih with h1 | ⟨h1, h2⟩ | ⟨h1, h2⟩
      · exact Or.inl h1.symm
      · exact Or.inr (Or.inr ⟨h2.symm, h1.symm⟩)
      · exact Or.inr (Or.inl ⟨h2.symm, h1.symm⟩)
    | trans _ _ ih1 ih2 =>
      rcases ih1 with h1 | ⟨h1, h2⟩ | ⟨h1, h2⟩ <;>
        rcases ih2 with h3 | ⟨h3, h4⟩ | ⟨h3, h4⟩
      · exact Or.inl (h1.trans h3)
      · exact Or.inr (Or.inl ⟨h1.trans h3, h4⟩)
      · exact Or.inr (Or.inr ⟨h1.trans h3, h4⟩)
      · exact Or.inr (Or.inl ⟨h1, h2.trans h3⟩)
      · exact Or.inr (Or.inl ⟨h1, h4⟩)
      · exact Or.inl (h1.trans h4)
      · exact Or.inr (Or.inr ⟨h1, h2.trans h3⟩)
      · exact Or.inl (h1.trans h4)
      · exact Or.inr (Or.inr ⟨h1, h4⟩)
  · intro h
    have hxy : Conn (ps ++ [(x, y)]) x y :=
      Conn.rel x y (List.mem_append.2 (Or.inr (List.mem_singleton.2 rfl)))
    have hsub : ∀ p ∈ ps, p ∈ ps ++ [(x, y)] :=
      fun p hp => List.mem_append.2 (Or.inl hp)
    rcases h with h1 | ⟨h1, h2⟩ | ⟨h1, h2⟩
    · exact conn_mono hsub h1
    · exact ((conn_mono hsub h1).trans hxy).trans (conn_mono hsub h2)
    · exact ((conn_mono hsub h1).trans hxy.symm).trans (conn_mono hsub h2)

theorem seenIds_append (l1 l2 : List Op) :
    seenIds (l1 ++ l2) = seenIds l1 ++ seenIds l2 := by
  induction l1 with
  | nil => rfl
  | cons op rest ih => simp [seenIds, ih]

theorem unionPairs_append (l1 l2 : List Op) :
    unionPairs (l1 ++ l2) = unionPairs l1 ++ unionPairs l2 := by
  induction l1 with
  | nil => rfl
  | cons op rest ih =>
    cases op with
    | findOp x => simp [unionPairs, ih]
    | unionOp x y => simp [unionPairs, ih]

theorem runFrom_append (uf : UF) (l1 l2 : List Op) :
    runFrom uf (l1 ++ l2) =
      match runFrom uf l1 with
      | none => none
      | some uf' => runFrom uf' l2 := by
  induction l1 generalizing uf with
  | nil => rfl
  | cons op rest ih =>
    show (match runStep uf op with
      | none => none
      | some uf' => runFrom uf' (rest ++ l2)) =
      match (match runStep uf op with
        | none => none
        | some uf' => runFrom uf' rest) with
      | none => none
      | some uf' => runFrom uf' l2
    cases runStep uf op with
    | none => rfl
    | some uf' => exact ih uf'

/-- Transport the one-extra-pair closure across the root function. -/
theorem conn_snoc_iff {ps : List (Nat × Nat)} {x y a b : Nat}
    (ρ : Nat → Nat) (hiff : ∀ u v, ρ u = ρ v ↔ Conn ps u v) :
    (ρ a = ρ b ∨ (ρ a = ρ x ∧ ρ b = ρ y) ∨ (ρ a = ρ y ∧ ρ b = ρ x)) ↔
      Conn (ps ++ [(x, y)]) a b := by
  rw [conn_snoc]
  constructor
  · rintro (h | ⟨h1, h2⟩ | ⟨h1, h2⟩)
    · exact Or.inl ((hiff a b).1 h)
    · exact Or.inr (Or.inl ⟨(hiff a x).1 h1, ((hiff b y).1 h2).symm⟩)
    · exact Or.inr (Or.inr ⟨(hiff a y).1 h1, ((hiff b x).1 h2).symm⟩)
  · rintro (h | ⟨h1, h2⟩ | ⟨h1, h2⟩)
    · exact Or.inl ((hiff a b).2 h)
    · exact Or.inr (Or.inl ⟨(hiff a x).2 h1, (hiff b y).2 h2.symm⟩)
    · exact Or.inr (Or.inr ⟨(hiff a y).2 h1, (hiff b x).2 h2.symm⟩)

/-- The run of any trace succeeds, keeps the structure well-formed, keys
it by exactly the identifiers passed in, and equates roots exactly on the
closure of the union calls. -/
theorem runOps_spec (ops : List Op) :
    ∃ uf, runOps ops = some uf ∧ UFWF uf ∧
      (∀ z, z ∈ akeys uf.parent ↔ z ∈ seenIds ops) ∧
      (∀ a b, rootp uf.parent a = rootp uf.parent b ↔
        Conn (unionPairs ops) a b) := by
  induction ops using List.reverseRecOn with
  | nil =>
    refine ⟨UF.empty, rfl, ufwf_empty, ?_, ?_⟩
    · intro z
      simp [UF.empty, seenIds]
    · intro a b
      show rootp [] a = rootp [] b ↔ _
      show rootN 0 [] a = rootN 0 [] b ↔ _
      rw [rootN_zero, rootN_zero]
      constructor
      · intro h
        rw [h]
        exact Conn.refl b
      · exact conn_nil
  | append_singleton ops op ih =>
    obtain ⟨uf, hrun, hwf, hkeys, hconn⟩ := ih
    cases op with
    | findOp x =>
      obtain ⟨uf', hf, hwf', hkeys', hroots'⟩ := find_spec hwf x
      refine ⟨uf', ?_, hwf', ?_, ?_⟩
      · show runFrom UF.empty (ops ++ [Op.findOp x]) = some uf'
        rw [runFrom_append]
        show (match runOps ops with
          | none => none
          | some uf0 => runFrom uf0 [Op.findOp x]) = some uf'
        rw [hrun]
        show (match runStep uf (Op.findOp x) with
          | none => none
          | some uf0 => some uf0) = some uf'
        show (match (UF.find uf x).map Prod.fst with
          | none => none
          | some uf0 => some uf0) = some uf'
        rw [hf]
        rfl
      · intro z
        rw [hkeys' z, hkeys z, seenIds_append, List.mem_append]
        show _ ↔ z ∈ seenIds ops ∨ z ∈ [x] ++ seenIds []
        simp [seenIds]
      · intro a b
        rw [hroots' a, hroots' b, hconn a b,
          show unionPairs (ops ++ [Op.findOp x]) = unionPairs ops by
            rw [unionPairs_append]
            simp [unionPairs]]
    | unionOp x y =>
      obtain ⟨uf', hu, hwf', hkeys', rX, rY, hrXY, hform⟩ := union_spec hwf x y
      refine ⟨uf', ?_, hwf', ?_, ?_⟩
      · show runFrom UF.empty (ops ++ [Op.unionOp x y]) = some uf'
        rw [runFrom_append]
        show (match runOps ops with
          | none => none
          | some uf0 => runFrom uf0 [Op.unionOp x y]) = some uf'
        rw [hrun]
        show (match runStep uf (Op.unionOp x y) with
          | none => none
          | some uf0 => some uf0) = some uf'
        show (match UF.union uf x y with
          | none => none
          | some uf0 => some uf0) = some uf'
        rw [hu]
      · intro z
        rw [hkeys' z, hkeys z, seenIds_append, List.mem_append]
        show _ ↔ z ∈ seenIds ops ∨ z ∈ [x, y] ++ seenIds []
        simp [seenIds]
      · intro a b
        rw [show unionPairs (ops ++ [Op.unionOp x y]) =
            unionPairs ops ++ [(x, y)] by
          rw [unionPairs_append]
          simp [unionPairs]]
        rw [← conn_snoc_iff (rootp uf.parent) hconn]
        rw [hform a, hform b]
        rcases hrXY with ⟨hX, hY⟩ | ⟨hX, hY⟩
        · subst hX
          subst hY
          by_cases ha : rootp uf.parent a = rootp uf.parent y <;>
            by_cases hb : rootp uf.parent b = rootp uf.parent y
          · rw [if_pos ha, if_pos hb]
            constructor
            · intro _
              exact Or.inl (ha.trans hb.symm)
            · intro _
              rfl
          · rw [if_pos ha, if_neg hb]
            constructor
            · intro h
              exact Or.inr (Or.inr ⟨ha, h.symm⟩)
            · rintro (h | ⟨h1, h2⟩ | ⟨h1, h2⟩)
              · exact absurd (h.symm.trans ha) hb
              · exact absurd h2 hb
              · exact h2.symm
          · rw [if_neg ha, if_pos hb]
            constructor
            · intro h
              exact Or.inr (Or.inl ⟨h, hb⟩)
            · rintro (h | ⟨h1, h2⟩ | ⟨h1, h2⟩)
              · exact absurd (h.trans hb) ha
              · exact h1
              · exact absurd h1 ha
          · rw [if_neg ha, if_neg hb]
            constructor
            · exact Or.inl
            · rintro (h | ⟨h1, h2⟩ | ⟨h1, h2⟩)
              · exact h
              · exact absurd h2 hb
              · exact absurd h1 ha
        · subst hX
          subst hY
          by_cases ha : rootp uf.parent a = rootp uf.parent x <;>
            by_cases hb : rootp uf.parent b = rootp uf.parent x
          · rw [if_pos ha, if_pos hb]
            constructor
            · intro _
              exact Or.inl (ha.trans hb.symm)
            · intro _
              rfl
          · rw [if_pos ha, if_neg hb]
            constructor
            · intro h
              exact Or.inr (Or.inl ⟨ha, h.symm⟩)
            · rintro (h | ⟨h1, h2⟩ | ⟨h1, h2⟩)
              · exact absurd (h.symm.trans ha) hb
              · exact h2.symm
              · exact absurd h2 hb
          · rw [if_neg ha, if_pos hb]
            constructor
            · intro h
              exact Or.inr (Or.inr ⟨h, hb⟩)
            · rintro (h | ⟨h1, h2⟩ | ⟨h1, h2⟩)
              · exact absurd (h.trans hb) ha
              · exact absurd h1 ha
              · exact h1
          · rw [if_neg ha, if_neg hb]
            constructor
            · exact Or.inl
            · rintro (h | ⟨h1, h2⟩ | ⟨h1, h2⟩)
              · exact h
              · exact absurd h1 ha
              · exact absurd h2 hb

end Analyze

namespace Analyze

theorem isRoot_alookup {m : List (Nat × Nat)} {r : Nat} (h : isRoot m r)
    (hm : r ∈ akeys m) : alookup m r = some r := by
  cases hl : alookup m r with
  | none => exact absurd hm (alookup_eq_none.1 hl)
  | some v =>
    have hv : v = r := by
      have h2 : pstep m r = r := h
      unfold pstep at h2
      rw [hl] at h2
      exact h2
    rw [hv]

/-- C8: every trace on a fresh `UnionFind()` runs to completion;
afterwards `find` succeeds on any identifier (auto-initializing unseen
ones) and ends at a self-parented root, `union` succeeds on any two
identifiers, and every identifier's parent chain terminates at a root. -/
theorem find_union_total (ops : List Op) :
    ∃ uf, runOps ops = some uf ∧
      (∀ x, isRoot uf.parent (rootp uf.parent x)) ∧
      (∀ x, ∃ uf1 r, UF.find uf x = some (uf1, r) ∧
        alookup uf1.parent r = some r) ∧
      (∀ x y, ∃ uf2, UF.union uf x y = some uf2) := by
  obtain ⟨uf, hrun, hwf, hkeys, hconn⟩ := runOps_spec ops
  refine ⟨uf, hrun, fun x => isRoot_rootp hwf.pwf x, ?_, ?_⟩
  · intro x
    obtain ⟨uf1, hf, hwf1, hkeys1, hroots1⟩ := find_spec hwf x
    refine ⟨uf1, rootp uf.parent x, hf, ?_⟩
    have hrk : rootp uf1.parent (rootp uf.parent x) = rootp uf.parent x := by
      rw [hroots1]
      exact rootp_idem hwf.pwf x
    have hroot1 : isRoot uf1.parent (rootp uf.parent x) := by
      have h1 := isRoot_rootp hwf1.pwf (rootp uf.parent x)
      rwa [hrk] at h1
    have hmem : rootp uf.parent x ∈ akeys uf1.parent := by
      rw [hkeys1]
      by_cases hx : x ∈ akeys uf.parent
      · exact Or.inl (rootp_mem hwf.pwf hx)
      · right
        rw [rootp_of_not_mem hx]
    exact isRoot_alookup hroot1 hmem
  · intro x y
    obtain ⟨uf2, hu, _⟩ := union_spec hwf x y
    exact ⟨uf2, hu⟩

/-- C2: after any trace, the roots returned by `find(x)` and then
`find(y)` are equal exactly when the union calls made so far connect `x`
and `y`. -/
theorem find_eq_iff_conn (ops : List Op) (x y : Nat)
    (hx : x ∈ seenIds ops) (hy : y ∈ seenIds ops) :
    ∃ uf uf1 uf2 r1 r2, runOps ops = some uf ∧
      UF.find uf x = some (uf1, r1) ∧ UF.find uf1 y = some (uf2, r2) ∧
      (r1 = r2 ↔ Conn (unionPairs ops) x y) := by
  obtain ⟨uf, hrun, hwf, hkeys, hconn⟩ := runOps_spec ops
  obtain ⟨uf1, hf1, hwf1, hkeys1, hroots1⟩ := find_spec hwf x
  obtain ⟨uf2, hf2, hwf2, hkeys2, hroots2⟩ := find_spec hwf1 y
  refine ⟨uf, uf1, uf2, _, _, hrun, hf1, hf2, ?_⟩
  rw [hroots1 y]
  exact hconn x y

/-- C9: repeated `find` with no intervening unions returns the same
root, and `union` on two identifiers already sharing a root succeeds and
leaves every identifier's root unchanged. -/
theorem find_idem_union_noop (ops : List Op) :
    ∃ uf, runOps ops = some uf ∧
      (∀ x uf1 r1, UF.find uf x = some (uf1, r1) →
        ∃ uf2, UF.find uf1 x = some (uf2, r1)) ∧
      (∀ x y, rootp uf.parent x = rootp uf.parent y →
        ∃ uf2, UF.union uf x y = some uf2 ∧
          ∀ z, rootp uf2.parent z = rootp uf.parent z) := by
  obtain ⟨uf, hrun, hwf, hkeys, hconn⟩ := runOps_spec ops
  refine ⟨uf, hrun, ?_, ?_⟩
  · intro x uf1 r1 hf
    obtain ⟨uf1', hf', hwf1, hkeys1, hroots1⟩ := find_spec hwf x
    rw [hf'] at hf
    have hp := Option.some.inj hf
    have huf1 : uf1' = uf1 := congrArg Prod.fst hp
    have hr1 : rootp uf.parent x = r1 := congrArg Prod.snd hp
    rw [← huf1]
    obtain ⟨uf2, hf2, hwf2, hkeys2, hroots2⟩ := find_spec hwf1 x
    refine ⟨uf2, ?_⟩
    rw [hf2, hroots1 x, hr1]
  · intro x y hxy
    obtain ⟨uf2, hu, hwf2, hkeys2, rX, rY, hrXY, hform⟩ := union_spec hwf x y
    refine ⟨uf2, hu, ?_⟩
    intro z
    rw [hform z]
    have hXY : rX = rY := by
      rcases hrXY with ⟨h1, h2⟩ | ⟨h1, h2⟩
      · rw [h1, h2, hxy]
      · rw [h1, h2, hxy]
    by_cases hz : rootp uf.parent z = rY
    · rw [if_pos hz, hXY, hz]
    · rw [if_neg hz]

end Analyze

namespace Analyze

/-! ### `UnionFind.get_groups` and the deduplication pipeline state -/

/-- `d[key].append(x)` on a `defaultdict(list)` (also used for
`groups[root].add(x)` on a `defaultdict(set)`): create the bucket at the
end if absent, append the member otherwise. -/
def dictAppend {κ : Type} [DecidableEq κ] (g : List (κ × List Nat)) (r : κ)
    (x : Nat) : List (κ × List Nat) :=
  match alookup g r with
  | none => g ++ [(r, [x])]
  | some l => aset g r (l ++ [x])

/-- Insertion-ordered model of a Python `set` filled by `add`. -/
def setList {α : Type} [DecidableEq α] : List α → List α → List α
  | acc, [] => acc
  | acc, x :: rest => setList (if x ∈ acc then acc else acc ++ [x]) rest

/-- The loop of `get_groups`: for each key of the snapshot of
`self.parent`, find its root (threading the compressed state) and bucket
the key under the root. -/
def UF.getGroupsAux : UF → List Nat → List (Nat × List Nat) →
    Option (UF × List (Nat × List Nat))
  | uf, [], g => some (uf, g)
  | uf, x :: rest, g =>
    match UF.find uf x with
    | none => none
    | some (uf', r) => UF.getGroupsAux uf' rest (dictAppend g r x)

/-- `UnionFind.get_groups`. -/
def UF.get_groups (uf : UF) : Option (UF × List (Nat × List Nat)) :=
  UF.getGroupsAux uf (akeys uf.parent) []

/-- Pure counterpart of the `get_groups` loop for a fixed root
function. -/
def buildGroups (ρ : Nat → Nat) : List Nat → List (Nat × List Nat) →
    List (Nat × List Nat)
  | [], g => g
  | x :: rest, g => buildGroups ρ rest (dictAppend g (ρ x) x)

/-- Step 1 of `deduplicate_users`:
`for uid in users_df['id']: uf.find(uid)`. -/
def registerAll : UF → List Nat → Option UF
  | uf, [] => some uf
  | uf, x :: rest =>
    match UF.find uf x with
    | none => none
    | some (uf', _) => registerAll uf' rest

/-- All-self parent map over the listed identifiers. -/
def selfMap (l : List Nat) : List (Nat × Nat) := l.map (fun i => (i, i))

/-- All-zero rank map over the listed identifiers. -/
def zeroMap (l : List Nat) : List (Nat × Nat) := l.map (fun i => (i, 0))

theorem akeys_selfMap (l : List Nat) : akeys (selfMap l) = l := by
  induction l with
  | nil => rfl
  | cons x rest ih =>
    show x :: akeys (selfMap rest) = x :: rest
    rw [ih]

theorem akeys_zeroMap (l : List Nat) : akeys (zeroMap l) = l := by
  induction l with
  | nil => rfl
  | cons x rest ih =>
    show x :: akeys (zeroMap rest) = x :: rest
    rw [ih]

theorem alookup_selfMap (l : List Nat) (x : Nat) :
    alookup (selfMap l) x = if x ∈ l then some x else none := by
  induction l with
  | nil => simp [selfMap, alookup]
  | cons y rest ih =>
    show (if y = x then some y else alookup (selfMap rest) x) = _
    by_cases h : y = x
    · subst h
      rw [if_pos rfl, if_pos (List.mem_cons_self y rest)]
    · rw [if_neg h, ih]
      by_cases hm : x ∈ rest
      · rw [if_pos hm, if_pos (List.mem_cons_of_mem _ hm)]
      · rw [if_neg hm, if_neg (by
          rw [List.mem_cons, not_or]
          exact ⟨fun hh => h hh.symm, hm⟩)]

theorem pstep_selfMap (l : List Nat) (z : Nat) : pstep (selfMap l) z = z := by
  unfold pstep
  rw [alookup_selfMap]
  by_cases h : z ∈ l
  · rw [if_pos h]
    rfl
  · rw [if_neg h]
    rfl

theorem rootp_selfMap (l : List Nat) (z : Nat) : rootp (selfMap l) z = z :=
  rootN_of_isRoot (pstep_selfMap l z) _

theorem ufwf_selfMap {l : List Nat} (hnd : l.Nodup) :
    UFWF ⟨selfMap l, zeroMap l⟩ := by
  constructor
  · constructor
    · rw [show akeys (selfMap l) = l from akeys_selfMap l]
      exact hnd
    · intro e he
      obtain ⟨i, hi, hie⟩ := List.mem_map.1 he
      rw [← hie, akeys_selfMap]
      exact hi
    · refine ⟨fun _ => 0, ?_⟩
      intro e he
      obtain ⟨i, hi, hie⟩ := List.mem_map.1 he
      rw [← hie]
      left
      rfl
  · intro k hk
    have hk2 : k ∈ akeys (selfMap l) := hk
    rw [akeys_selfMap] at hk2
    have hk3 : k ∈ akeys (zeroMap l) := by
      rw [akeys_zeroMap]
      exact hk2
    exact hk3

theorem find_selfMap_mem {l : List Nat} {x : Nat} (hx : x ∈ l)
    (rk : List (Nat × Nat)) :
    UF.find ⟨selfMap l, rk⟩ x = some (⟨selfMap l, rk⟩, x) := by
  show UF.findAux ((selfMap l).length + 1) _ x = _
  simp only [UF.findAux, alookup_selfMap, if_pos hx]
  simp

theorem nodup_append_singleton {α : Type} {l : List α} {x : α}
    (hnd : l.Nodup) (hx : x ∉ l) : (l ++ [x]).Nodup := by
  refine hnd.append (List.nodup_singleton x) ?_
  intro a ha hax
  rw [List.mem_singleton] at hax
  exact hx (hax ▸ ha)

theorem registerAll_spec :
    ∀ (ids ks : List Nat), ks.Nodup →
    registerAll ⟨selfMap ks, zeroMap ks⟩ ids =
      some ⟨selfMap (setList ks ids), zeroMap (setList ks ids)⟩ := by
  intro ids
  induction ids with
  | nil =>
    intro ks hnd
    rfl
  | cons x rest ih =>
    intro ks hnd
    by_cases hx : x ∈ ks
    · show (match UF.find ⟨selfMap ks, zeroMap ks⟩ x with
        | none => none
        | some (uf', _) => registerAll uf' rest) = _
      rw [find_selfMap_mem hx]
      show registerAll ⟨selfMap ks, zeroMap ks⟩ rest = _
      rw [ih ks hnd]
      show some (UF.mk (selfMap (setList ks rest)) (zeroMap (setList ks rest))) =
        some (UF.mk
          (selfMap (setList (if x ∈ ks then ks else ks ++ [x]) rest))
          (zeroMap (setList (if x ∈ ks then ks else ks ++ [x]) rest)))
      rw [if_pos hx]
    · have hxk : x ∉ akeys (selfMap ks) := by
        rw [akeys_selfMap]
        exact hx
      have hfind : UF.find ⟨selfMap ks, zeroMap ks⟩ x =
          some (⟨selfMap ks ++ [(x, x)], aset (zeroMap ks) x 0⟩, x) :=
        find_spec_new hxk
      show (match UF.find ⟨selfMap ks, zeroMap ks⟩ x with
        | none => none
        | some (uf', _) => registerAll uf' rest) = _
      rw [hfind]
      have he1 : selfMap ks ++ [(x, x)] = selfMap (ks ++ [x]) := by
        simp [selfMap]
      have he2 : aset (zeroMap ks) x 0 = zeroMap (ks ++ [x]) := by
        rw [aset_of_not_mem]
        · simp [zeroMap]
        · rw [akeys_zeroMap]
          exact hx
      show registerAll ⟨selfMap ks ++ [(x, x)], aset (zeroMap ks) x 0⟩ rest = _
      rw [he1, he2, ih (ks ++ [x]) (nodup_append_singleton hnd hx)]
      show some (UF.mk (selfMap (setList (ks ++ [x]) rest))
          (zeroMap (setList (ks ++ [x]) rest))) =
        some (UF.mk
          (selfMap (setList (if x ∈ ks then ks else ks ++ [x]) rest))
          (zeroMap (setList (if x ∈ ks then ks else ks ++ [x]) rest)))
      rw [if_neg hx]

end Analyze

namespace Analyze

theorem buildGroups_congr {ρ₁ ρ₂ : Nat → Nat} :
    ∀ (ks : List Nat) (g : List (Nat × List Nat)),
    (∀ k ∈ ks, ρ₁ k = ρ₂ k) →
    buildGroups ρ₁ ks g = buildGroups ρ₂ ks g := by
  intro ks
  induction ks with
  | nil =>
    intro g _
    rfl
  | cons x rest ih =>
    intro g h
    show buildGroups ρ₁ rest (dictAppend g (ρ₁ x) x) = _
    rw [h x (List.mem_cons_self _ _)]
    exact ih _ (fun k hk => h k (List.mem_cons_of_mem _ hk))

theorem getGroupsAux_spec :
    ∀ (ks : List Nat) (uf : UF) (g : List (Nat × List Nat)), UFWF uf →
    (∀ k ∈ ks, k ∈ akeys uf.parent) →
    ∃ uf', UF.getGroupsAux uf ks g =
        some (uf', buildGroups (rootp uf.parent) ks g) ∧ UFWF uf' ∧
      akeys uf'.parent = akeys uf.parent ∧
      (∀ z, rootp uf'.parent z = rootp uf.parent z) := by
  intro ks
  induction ks with
  | nil =>
    intro uf g hwf hks
    exact ⟨uf, rfl, hwf, rfl, fun z => rfl⟩
  | cons x rest ih =>
    intro uf g hwf hks
    have hx : x ∈ akeys uf.parent := hks x (List.mem_cons_self _ _)
    obtain ⟨p', hf, hkeys, hpwf, hroots⟩ := find_spec_mem hwf.pwf hx
    have hwf1 : UFWF ⟨p', uf.rank⟩ := by
      constructor
      · exact hpwf
      · intro k hk
        apply hwf.rankdom
        have hk2 : k ∈ akeys p' := hk
        rwa [hkeys] at hk2
    have hks1 : ∀ k ∈ rest, k ∈ akeys (UF.mk p' uf.rank).parent := by
      intro k hk
      have hk2 : k ∈ akeys p' := by
        rw [hkeys]
        exact hks k (List.mem_cons_of_mem _ hk)
      exact hk2
    obtain ⟨uf', haux, hwf', hkeys', hroots'⟩ :=
      ih ⟨p', uf.rank⟩ (dictAppend g (rootp uf.parent x) x) hwf1 hks1
    refine ⟨uf', ?_, hwf', ?_, ?_⟩
    · show (match UF.find uf x with
        | none => none
        | some (uf', r) => UF.getGroupsAux uf' rest (dictAppend g r x)) = _
      rw [hf]
      show UF.getGroupsAux ⟨p', uf.rank⟩ rest
          (dictAppend g (rootp uf.parent x) x) = _
      rw [haux]
      have hbg : buildGroups (rootp (UF.mk p' uf.rank).parent) rest
          (dictAppend g (rootp uf.parent x) x) =
          buildGroups (rootp uf.parent) rest
            (dictAppend g (rootp uf.parent x) x) :=
        buildGroups_congr rest _ (fun k _ => hroots k)
      rw [hbg]
      rfl
    · rw [hkeys']
      exact hkeys
    · intro z
      rw [hroots' z]
      exact hroots z

theorem get_groups_spec {uf : UF} (hwf : UFWF uf) :
    ∃ uf', UF.get_groups uf =
      some (uf', buildGroups (rootp uf.parent) (akeys uf.parent) []) := by
  obtain ⟨uf', h, _, _, _⟩ :=
    getGroupsAux_spec (akeys uf.parent) uf [] hwf (fun k hk => hk)
  exact ⟨uf', h⟩

theorem buildGroups_lookup_some (ρ : Nat → Nat) :
    ∀ (ks : List Nat) (g : List (Nat × List Nat)) (r : Nat) (l : List Nat),
    alookup g r = some l →
    alookup (buildGroups ρ ks g) r =
      some (l ++ ks.filter (fun x => ρ x = r)) := by
  intro ks
  induction ks with
  | nil =>
    intro g r l h
    simpa [buildGroups] using h
  | cons x rest ih =>
    intro g r l h
    show alookup (buildGroups ρ rest (dictAppend g (ρ x) x)) r = _
    by_cases hr : ρ x = r
    · subst hr
      have hd : dictAppend g (ρ x) x = aset g (ρ x) (l ++ [x]) := by
        unfold dictAppend
        rw [h]
      rw [hd]
      have h2 : alookup (aset g (ρ x) (l ++ [x])) (ρ x) = some (l ++ [x]) :=
        alookup_aset_self _ _ _
      rw [ih _ _ _ h2]
      simp [List.filter_cons, List.append_assoc]
    · have hlp : alookup (dictAppend g (ρ x) x) r = some l := by
        unfold dictAppend
        cases hgx : alookup g (ρ x) with
        | none =>
          rw [alookup_append_of_mem _ (mem_akeys_of_alookup h)]
          exact h
        | some lx =>
          rw [alookup_aset_ne _ _ hr]
          exact h
      rw [ih _ _ _ hlp]
      simp [List.filter_cons, hr]

theorem buildGroups_lookup_none (ρ : Nat → Nat) :
    ∀ (ks : List Nat) (g : List (Nat × List Nat)) (r : Nat),
    alookup g r = none →
    alookup (buildGroups ρ ks g) r =
      if ks.filter (fun x => ρ x = r) = [] then none
      else some (ks.filter (fun x => ρ x = r)) := by
  intro ks
  induction ks with
  | nil =>
    intro g r h
    simpa [buildGroups] using h
  | cons x rest ih =>
    intro g r h
    show alookup (buildGroups ρ rest (dictAppend g (ρ x) x)) r = _
    by_cases hr : ρ x = r
    · subst hr
      have hd : dictAppend g (ρ x) x = g ++ [(ρ x, [x])] := by
        unfold dictAppend
        rw [h]
      rw [hd]
      have h2 : alookup (g ++ [(ρ x, [x])]) (ρ x) = some [x] := by
        rw [alookup_append_of_not_mem _ (alookup_eq_none.1 h)]
        simp [alookup]
      rw [buildGroups_lookup_some ρ rest _ _ _ h2]
      simp [List.filter_cons]
    · have hlp : alookup (dictAppend g (ρ x) x) r = none := by
        unfold dictAppend
        cases hgx : alookup g (ρ x) with
        | none =>
          rw [alookup_append_of_not_mem _ (alookup_eq_none.1 h)]
          simp [alookup, hr]
        | some lx =>
          rw [alookup_aset_ne _ _ hr]
          exact h
      rw [ih _ _ hlp]
      simp [List.filter_cons, hr]

theorem buildGroups_nodupkeys (ρ : Nat → Nat) :
    ∀ (ks : List Nat) (g : List (Nat × List Nat)), (akeys g).Nodup →
    (akeys (buildGroups ρ ks g)).Nodup := by
  intro ks
  induction ks with
  | nil =>
    intro g h
    exact h
  | cons x rest ih =>
    intro g h
    show (akeys (buildGroups ρ rest (dictAppend g (ρ x) x))).Nodup
    apply ih
    unfold dictAppend
    cases hgx : alookup g (ρ x) with
    | none =>
      rw [akeys_append]
      exact nodup_append_singleton h (alookup_eq_none.1 hgx)
    | some lx => exact aset_nodupKeys h

theorem buildGroups_akeys (ρ : Nat → Nat) :
    ∀ (ks : List Nat) (g : List (Nat × List Nat)),
    akeys (buildGroups ρ ks g) = setList (akeys g) (ks.map ρ) := by
  intro ks
  induction ks with
  | nil =>
    intro g
    rfl
  | cons x rest ih =>
    intro g
    show akeys (buildGroups ρ rest (dictAppend g (ρ x) x)) =
      setList (if ρ x ∈ akeys g then akeys g else akeys g ++ [ρ x])
        (rest.map ρ)
    rw [ih]
    have hk : akeys (dictAppend g (ρ x) x) =
        if ρ x ∈ akeys g then akeys g else akeys g ++ [ρ x] := by
      unfold dictAppend
      cases hgx : alookup g (ρ x) with
      | none =>
        rw [akeys_append, if_neg (alookup_eq_none.1 hgx)]
        rfl
      | some lx =>
        rw [akeys_aset_of_mem _ (mem_akeys_of_alookup hgx),
          if_pos (mem_akeys_of_alookup hgx)]
    rw [hk]

theorem setList_mem {α : Type} [DecidableEq α] :
    ∀ (l acc : List α) (z : α), z ∈ setList acc l ↔ z ∈ acc ∨ z ∈ l := by
  intro l
  induction l with
  | nil =>
    intro acc z
    show z ∈ acc ↔ z ∈ acc ∨ z ∈ ([] : List α)
    simp
  | cons x rest ih =>
    intro acc z
    show z ∈ setList (if x ∈ acc then acc else acc ++ [x]) rest ↔ _
    rw [ih, List.mem_cons]
    by_cases hx : x ∈ acc
    · rw [if_pos hx]
      constructor
      · rintro (h | h)
        · exact Or.inl h
        · exact Or.inr (Or.inr h)
      · rintro (h | h | h)
        · exact Or.inl h
        · exact Or.inl (h ▸ hx)
        · exact Or.inr h
    · rw [if_neg hx, List.mem_append, List.mem_singleton]
      tauto

theorem setList_nodup {α : Type} [DecidableEq α] :
    ∀ (l acc : List α), acc.Nodup → (setList acc l).Nodup := by
  intro l
  induction l with
  | nil =>
    intro acc h
    exact h
  | cons x rest ih =>
    intro acc h
    show (setList (if x ∈ acc then acc else acc ++ [x]) rest).Nodup
    by_cases hx : x ∈ acc
    · rw [if_pos hx]
      exact ih acc h
    · rw [if_neg hx]
      exact ih _ (nodup_append_singleton h hx)

theorem setList_of_nodup {α : Type} [DecidableEq α] :
    ∀ (l acc : List α), (acc ++ l).Nodup → setList acc l = acc ++ l := by
  intro l
  induction l with
  | nil =>
    intro acc h
    show acc = acc ++ []
    simp
  | cons x rest ih =>
    intro acc h
    show setList (if x ∈ acc then acc else acc ++ [x]) rest = _
    have hdisj := List.disjoint_of_nodup_append h
    have hx : x ∉ acc := fun hxm => hdisj hxm (List.mem_cons_self x rest)
    rw [if_neg hx, ih (acc ++ [x]) (by simpa [List.append_assoc] using h)]
    simp

theorem toFinset_setList {α : Type} [DecidableEq α] (l : List α) :
    (setList [] l).toFinset = l.toFinset := by
  ext z
  rw [List.mem_toFinset, List.mem_toFinset, setList_mem]
  simp

theorem length_setList_nil {α : Type} [DecidableEq α] (l : List α) :
    (setList [] l).length = l.toFinset.card := by
  rw [← toFinset_setList]
  exact (List.toFinset_card_of_nodup (setList_nodup l [] List.nodup_nil)).symm

theorem toFinset_card_lt_of_not_nodup {α : Type} [DecidableEq α] :
    ∀ {l : List α}, ¬ l.Nodup → l.toFinset.card < l.length := by
  intro l
  induction l with
  | nil =>
    intro h
    exact absurd List.nodup_nil h
  | cons x rest ih =>
    intro h
    rw [List.toFinset_cons, List.length_cons]
    rw [List.nodup_cons, not_and_or] at h
    rcases h with h | h
    · have hx : x ∈ rest := by
        by_contra hx
        exact h hx
      rw [Finset.insert_eq_self.2 (List.mem_toFinset.2 hx)]
      have := List.toFinset_card_le rest
      omega
    · have h1 := ih h
      have h2 := Finset.card_insert_le x rest.toFinset
      omega

end Analyze

namespace Analyze

/-! ### User records and `deduplicate_users` -/

/-- A user row after normalization: `id` plus the four optional
normalized string fields (`email_normalized` etc.); a pandas null is
`none`. -/
structure UserRec where
  id : Nat
  email : Option String
  phone : Option String
  name : Option String
  address : Option String
deriving DecidableEq

/-- Python truthiness of an optional field value: present means a
non-null, non-empty string (`pd.notna(v) and v`). -/
def fpresent : Option String → Bool
  | none => false
  | some s => !(s == "")

/-- One field's contribution to `matches`: counted only when both
records have a present value and the values are equal
(`if v1 and v2: if v1 == v2`). -/
def fieldMatch (v1 v2 : Option String) : Bool :=
  fpresent v1 && fpresent v2 && v1 == v2

/-- The `matches` counter of step 5, over the four fields in loop
order. -/
def matchCount (a b : UserRec) : Nat :=
  (if fieldMatch a.email b.email then 1 else 0) +
    (if fieldMatch a.phone b.phone then 1 else 0) +
    (if fieldMatch a.name b.name then 1 else 0) +
    (if fieldMatch a.address b.address then 1 else 0)

/-- Two records share at least one present, equal field value. -/
def sharesField (u v : UserRec) : Bool :=
  fieldMatch u.email v.email || fieldMatch u.phone v.phone ||
    fieldMatch u.name v.name || fieldMatch u.address v.address

/-- Generic indexing loop: `d[key(a)].append(val(a))` for each row,
skipping rows whose key is absent. -/
def obucketFold {α κ : Type} [DecidableEq κ] (key : α → Option κ)
    (val : α → Nat) : List α → List (κ × List Nat) → List (κ × List Nat)
  | [], d => d
  | a :: rest, d =>
    match key a with
    | none => obucketFold key val rest d
    | some k => obucketFold key val rest (dictAppend d k (val a))

/-- The key used by step 2's indexes: the field value when non-null and
non-empty. -/
def fieldKey (f : UserRec → Option String) (u : UserRec) : Option String :=
  match f u with
  | none => none
  | some s => if s = "" then none else some s

/-- One of the four `by_*` indexes of step 2. -/
def indexBy (f : UserRec → Option String) (users : List UserRec) :
    List (String × List Nat) :=
  obucketFold (fieldKey f) (fun u => u.id) users []

/-- Step 3's `user_data` dict (`id → record`, later rows overwrite). -/
def userData : List (Nat × UserRec) → List UserRec → List (Nat × UserRec)
  | d, [] => d
  | d, u :: rest => userData (aset d u.id u) rest

/-- All unordered pairs within one ordered bucket, stored as
`(min(u1, u2), max(u1, u2))`, in loop order. -/
def pairsOfList : List Nat → List (Nat × Nat)
  | [] => []
  | x :: xs => xs.map (fun y => (min x y, max x y)) ++ pairsOfList xs

/-- Pairs contributed by a whole index, in bucket order; buckets with
fewer than two members are skipped by the `len > 1` guard. -/
def pairsOfIndex : List (String × List Nat) → List (Nat × Nat)
  | [] => []
  | (_, l) :: rest =>
    (if l.length > 1 then pairsOfList l else []) ++ pairsOfIndex rest

/-- Concatenated pair streams of the four indexes, in program order. -/
def fourIndexPairs (users : List UserRec) : List (Nat × Nat) :=
  pairsOfIndex (indexBy (fun u => u.email) users) ++
    pairsOfIndex (indexBy (fun u => u.phone) users) ++
    pairsOfIndex (indexBy (fun u => u.name) users) ++
    pairsOfIndex (indexBy (fun u => u.address) users)

/-- The `potential_pairs` set (modelled with insertion order). -/
def potentialPairs (users : List UserRec) : List (Nat × Nat) :=
  setList [] (fourIndexPairs users)

/-- Step 5: judge each candidate pair and union it when it matches on at
least three fields. -/
def judgePairs (ud : List (Nat × UserRec)) :
    UF → List (Nat × Nat) → Option UF
  | uf, [] => some uf
  | uf, (u1, u2) :: rest =>
    match alookup ud u1, alookup ud u2 with
    | some d1, some d2 =>
      if 3 ≤ matchCount d1 d2 then
        match UF.union uf u1 u2 with
        | none => none
        | some uf' => judgePairs ud uf' rest
      else judgePairs ud uf rest
    | _, _ => none

/-- Plain folding of `union` over a pair list. -/
def unionList : UF → List (Nat × Nat) → Option UF
  | uf, [] => some uf
  | uf, p :: rest =>
    match UF.union uf p.1 p.2 with
    | none => none
    | some uf' => unionList uf' rest

/-- The decision of the match judge for a stored pair. -/
def pairMatches (ud : List (Nat × UserRec)) (p : Nat × Nat) : Bool :=
  match alookup ud p.1, alookup ud p.2 with
  | some d1, some d2 => decide (3 ≤ matchCount d1 d2)
  | _, _ => false

/-- The candidate pairs the deduplication run passes to `union`. -/
def dedupUnionCalls (users : List UserRec) : List (Nat × Nat) :=
  (potentialPairs users).filter (pairMatches (userData [] users))

/-- `min(members)`. -/
def listMin : List Nat → Nat
  | [] => 0
  | x :: xs => xs.foldl min x

/-- `sorted(list(members))`. -/
def sortAsc (l : List Nat) : List Nat := List.insertionSort (· ≤ ·) l

/-- `deduplicate_users`: register all ids, judge the candidate pairs,
snapshot the groups, and shape the output as
`(unique_count, {min(members): sorted(members)})`. -/
def deduplicate_users (users : List UserRec) :
    Option (Nat × List (Nat × List Nat)) :=
  match registerAll UF.empty (users.map (fun u => u.id)) with
  | none => none
  | some uf0 =>
    match judgePairs (userData [] users) uf0 (potentialPairs users) with
    | none => none
    | some uf1 =>
      match UF.get_groups uf1 with
      | none => none
      | some (_, glist) =>
        some (glist.length,
          glist.map (fun e => (listMin e.2, sortAsc e.2)))

end Analyze

namespace Analyze

/-! ### Candidate-pair characterization -/

theorem obucketFold_lookup_some {α κ : Type} [DecidableEq κ]
    (key : α → Option κ) (val : α → Nat) :
    ∀ (xs : List α) (d : List (κ × List Nat)) (k : κ) (l : List Nat),
    alookup d k = some l →
    alookup (obucketFold key val xs d) k =
      some (l ++ (xs.filter (fun a => key a = some k)).map val) := by
  intro xs
  induction xs with
  | nil =>
    intro d k l h
    simpa [obucketFold] using h
  | cons a rest ih =>
    intro d k l h
    cases hka : key a with
    | none =>
      simp only [obucketFold, hka]
      rw [ih _ _ _ h]
      simp [List.filter_cons, hka]
    | some k' =>
      simp only [obucketFold, hka]
      by_cases hkk : k' = k
      · subst hkk
        have hd : dictAppend d k' (val a) = aset d k' (l ++ [val a]) := by
          unfold dictAppend
          rw [h]
        rw [hd, ih _ _ _ (alookup_aset_self _ _ _)]
        simp [List.filter_cons, hka, List.append_assoc]
      · have hlp : alookup (dictAppend d k' (val a)) k = some l := by
          unfold dictAppend
          cases hdk : alookup d k' with
          | none =>
            rw [alookup_append_of_mem _ (mem_akeys_of_alookup h)]
            exact h
          | some lx =>
            rw [alookup_aset_ne _ _ hkk]
            exact h
        rw [ih _ _ _ hlp]
        simp [List.filter_cons, hka, hkk]

theorem obucketFold_lookup_none {α κ : Type} [DecidableEq α] [DecidableEq κ]
    (key : α → Option κ) (val : α → Nat) :
    ∀ (xs : List α) (d : List (κ × List Nat)) (k : κ),
    alookup d k = none →
    alookup (obucketFold key val xs d) k =
      if (xs.filter (fun a => key a = some k)) = [] then none
      else some ((xs.filter (fun a => key a = some k)).map val) := by
  intro xs
  induction xs with
  | nil =>
    intro d k h
    simpa [obucketFold] using h
  | cons a rest ih =>
    intro d k h
    cases hka : key a with
    | none =>
      simp only [obucketFold, hka]
      rw [ih _ _ h]
      simp [List.filter_cons, hka]
    | some k' =>
      simp only [obucketFold, hka]
      by_cases hkk : k' = k
      · subst hkk
        have hd : dictAppend d k' (val a) = d ++ [(k', [val a])] := by
          unfold dictAppend
          rw [h]
        rw [hd]
        have h2 : alookup (d ++ [(k', [val a])]) k' = some [val a] := by
          rw [alookup_append_of_not_mem _ (alookup_eq_none.1 h)]
          simp [alookup]
        rw [obucketFold_lookup_some key val rest _ _ _ h2]
        simp [List.filter_cons, hka]
      · have hlp : alookup (dictAppend d k' (val a)) k = none := by
          unfold dictAppend
          cases hdk : alookup d k' with
          | none =>
            rw [alookup_append_of_not_mem _ (alookup_eq_none.1 h)]
            simp [alookup, hkk]
          | some lx =>
            rw [alookup_aset_ne _ _ hkk]
            exact h
        rw [ih _ _ hlp]
        simp [List.filter_cons, hka, hkk]

theorem obucketFold_nodupkeys {α κ : Type} [DecidableEq κ]
    (key : α → Option κ) (val : α → Nat) :
    ∀ (xs : List α) (d : List (κ × List Nat)), (akeys d).Nodup →
    (akeys (obucketFold key val xs d)).Nodup := by
  intro xs
  induction xs with
  | nil =>
    intro d h
    exact h
  | cons a rest ih =>
    intro d h
    cases hka : key a with
    | none =>
      simp only [obucketFold, hka]
      exact ih d h
    | some k' =>
      simp only [obucketFold, hka]
      apply ih
      unfold dictAppend
      cases hdk : alookup d k' with
      | none =>
        rw [akeys_append]
        exact nodup_append_singleton h (alookup_eq_none.1 hdk)
      | some lx => exact aset_nodupKeys h

/-- Every bucket of an index is the list of ids of the rows holding that
present field value, in row order. -/
theorem indexBy_mem {f : UserRec → Option String} {users : List UserRec}
    {s : String} {l : List Nat} (h : (s, l) ∈ indexBy f users) :
    l = (users.filter (fun u => fieldKey f u = some s)).map
      (fun u => u.id) := by
  have hnd := obucketFold_nodupkeys (fieldKey f) (fun u => u.id) users []
    (by simp)
  have hlk : alookup (indexBy f users) s = some l := mem_alookup hnd h
  unfold indexBy at hlk
  rw [obucketFold_lookup_none _ _ users [] s rfl] at hlk
  by_cases hf : users.filter (fun u => fieldKey f u = some s) = []
  · rw [if_pos hf] at hlk
    exact absurd hlk (by simp)
  · rw [if_neg hf] at hlk
    exact (Option.some.inj hlk).symm

/-- Conversely, a row with a present field value is in the bucket of
that value. -/
theorem indexBy_bucket_exists {f : UserRec → Option String}
    {users : List UserRec} {u : UserRec} (hu : u ∈ users) {s : String}
    (hs : fieldKey f u = some s) :
    ∃ l, (s, l) ∈ indexBy f users ∧ u.id ∈ l := by
  have hne : users.filter (fun v => fieldKey f v = some s) ≠ [] := by
    intro hnil
    have hmem : u ∈ users.filter (fun v => fieldKey f v = some s) :=
      List.mem_filter.2 ⟨hu, by simp [hs]⟩
    rw [hnil] at hmem
    simp at hmem
  have hlk : alookup (indexBy f users) s =
      some ((users.filter (fun v => fieldKey f v = some s)).map
        (fun v => v.id)) := by
    unfold indexBy
    rw [obucketFold_lookup_none _ _ users [] s rfl, if_neg hne]
  refine ⟨_, alookup_mem hlk, ?_⟩
  refine List.mem_map.2 ⟨u, ?_, rfl⟩
  exact List.mem_filter.2 ⟨hu, by simp [hs]⟩

theorem pairsOfList_short {l : List Nat} (h : l.length ≤ 1) :
    pairsOfList l = [] := by
  cases l with
  | nil => rfl
  | cons x xs =>
    cases xs with
    | nil => rfl
    | cons y ys => simp at h

theorem pairsOfIndex_mem {idx : List (String × List Nat)} {p : Nat × Nat} :
    p ∈ pairsOfIndex idx ↔ ∃ e ∈ idx, p ∈ pairsOfList e.2 := by
  induction idx with
  | nil => simp [pairsOfIndex]
  | cons e rest ih =>
    obtain ⟨s, l⟩ := e
    show p ∈ (if l.length > 1 then pairsOfList l else []) ++
      pairsOfIndex rest ↔ _
    rw [List.mem_append, ih]
    have hguard : p ∈ (if l.length > 1 then pairsOfList l else []) ↔
        p ∈ pairsOfList l := by
      by_cases hl : l.length > 1
      · rw [if_pos hl]
      · rw [if_neg hl, pairsOfList_short (by omega)]
    rw [hguard]
    constructor
    · rintro (h | ⟨e, he, hp⟩)
      · exact ⟨(s, l), List.mem_cons_self _ _, h⟩
      · exact ⟨e, List.mem_cons_of_mem _ he, hp⟩
    · rintro ⟨e, he, hp⟩
      rcases List.mem_cons.1 he with h1 | h1
      · subst h1
        exact Or.inl hp
      · exact Or.inr ⟨e, h1, hp⟩

theorem pairsOfList_mem_nodup {l : List Nat} (hnd : l.Nodup) {a b : Nat} :
    (a, b) ∈ pairsOfList l ↔ a < b ∧ a ∈ l ∧ b ∈ l := by
  induction l with
  | nil => simp [pairsOfList]
  | cons x xs ih =>
    rw [List.nodup_cons] at hnd
    show (a, b) ∈ xs.map (fun y => (min x y, max x y)) ++ pairsOfList xs ↔ _
    rw [List.mem_append, ih hnd.2]
    constructor
    · rintro (h | ⟨h1, h2, h3⟩)
      · obtain ⟨y, hy, hxy⟩ := List.mem_map.1 h
        have hxa : min x y = a := congrArg Prod.fst hxy
        have hxb : max x y = b := congrArg Prod.snd hxy
        have hne : x ≠ y := fun he => hnd.1 (he ▸ hy)
        rcases Nat.lt_or_ge x y with hlt | hge
        · rw [min_eq_left (le_of_lt hlt)] at hxa
          rw [max_eq_right (le_of_lt hlt)] at hxb
          subst hxa
          subst hxb
          exact ⟨hlt, List.mem_cons_self _ _, List.mem_cons_of_mem _ hy⟩
        · have hlt : y < x := lt_of_le_of_ne hge (fun he => hne he.symm)
          rw [min_eq_right (le_of_lt hlt)] at hxa
          rw [max_eq_left (le_of_lt hlt)] at hxb
          subst hxa
          subst hxb
          exact ⟨hlt, List.mem_cons_of_mem _ hy, List.mem_cons_self _ _⟩
      · exact ⟨h1, List.mem_cons_of_mem _ h2, List.mem_cons_of_mem _ h3⟩
    · rintro ⟨hab, ha, hb⟩
      rcases List.mem_cons.1 ha with ha1 | ha1 <;>
        rcases List.mem_cons.1 hb with hb1 | hb1
      · rw [ha1, hb1] at hab
        exact absurd hab (lt_irrefl x)
      · left
        refine List.mem_map.2 ⟨b, hb1, ?_⟩
        rw [ha1] at hab
        rw [ha1, min_eq_left (le_of_lt hab), max_eq_right (le_of_lt hab)]
      · left
        refine List.mem_map.2 ⟨a, ha1, ?_⟩
        rw [hb1] at hab
        rw [hb1, min_eq_right (le_of_lt hab), max_eq_left (le_of_lt hab)]
      · right
        exact ⟨hab, ha1, hb1⟩

end Analyze

namespace Analyze

theorem userData_append : ∀ (l1 l2 : List UserRec) (d : List (Nat × UserRec)),
    userData d (l1 ++ l2) = userData (userData d l1) l2 := by
  intro l1
  induction l1 with
  | nil =>
    intro l2 d
    rfl
  | cons u rest ih =>
    intro l2 d
    exact ih l2 (aset d u.id u)

theorem userData_akeys_mem :
    ∀ (users : List UserRec) (d : List (Nat × UserRec)) (z : Nat),
    z ∈ akeys (userData d users) ↔
      z ∈ akeys d ∨ z ∈ users.map (fun u => u.id) := by
  intro users
  induction users with
  | nil =>
    intro d z
    simp [userData]
  | cons u rest ih =>
    intro d z
    show z ∈ akeys (userData (aset d u.id u) rest) ↔ _
    rw [ih, mem_akeys_aset, List.map_cons, List.mem_cons]
    tauto

theorem userData_lookup_stable :
    ∀ (users : List UserRec) (d : List (Nat × UserRec)) (x : Nat),
    x ∉ users.map (fun u => u.id) →
    alookup (userData d users) x = alookup d x := by
  intro users
  induction users with
  | nil =>
    intro d x _
    rfl
  | cons u rest ih =>
    intro d x h
    rw [List.map_cons, List.mem_cons, not_or] at h
    show alookup (userData (aset d u.id u) rest) x = _
    rw [ih _ _ h.2, alookup_aset_ne _ _ (fun he => h.1 he.symm)]

theorem userData_lookup_self {users : List UserRec}
    (hN : (users.map (fun u => u.id)).Nodup) {u : UserRec} (hu : u ∈ users) :
    alookup (userData [] users) u.id = some u := by
  obtain ⟨pre, post, rfl⟩ := List.append_of_mem hu
  have h1 : userData [] (pre ++ u :: post) =
      userData (userData [] (pre ++ [u])) post := by
    rw [show pre ++ u :: post = (pre ++ [u]) ++ post from by simp]
    exact userData_append _ _ _
  have h2 : userData [] (pre ++ [u]) = aset (userData [] pre) u.id u := by
    rw [userData_append]
    rfl
  rw [h1, h2]
  have hpost : u.id ∉ post.map (fun v => v.id) := by
    rw [List.map_append, List.map_cons] at hN
    have h3 := hN.of_append_right
    rw [List.nodup_cons] at h3
    exact h3.1
  rw [userData_lookup_stable _ _ _ hpost, alookup_aset_self]

theorem pairsOfList_mem_comp :
    ∀ {l : List Nat} {p : Nat × Nat}, p ∈ pairsOfList l →
    p.1 ∈ l ∧ p.2 ∈ l := by
  intro l
  induction l with
  | nil =>
    intro p h
    simp [pairsOfList] at h
  | cons x xs ih =>
    intro p h
    rcases List.mem_append.1 h with h1 | h1
    · obtain ⟨y, hy, hxy⟩ := List.mem_map.1 h1
      have h1' : p.1 = min x y := (congrArg Prod.fst hxy).symm
      have h2' : p.2 = max x y := (congrArg Prod.snd hxy).symm
      constructor
      · rw [h1']
        rcases le_total x y with hc | hc
        · rw [min_eq_left hc]
          exact List.mem_cons_self _ _
        · rw [min_eq_right hc]
          exact List.mem_cons_of_mem _ hy
      · rw [h2']
        rcases le_total x y with hc | hc
        · rw [max_eq_right hc]
          exact List.mem_cons_of_mem _ hy
        · rw [max_eq_left hc]
          exact List.mem_cons_self _ _
    · obtain ⟨ha, hb⟩ := ih h1
      exact ⟨List.mem_cons_of_mem _ ha, List.mem_cons_of_mem _ hb⟩

theorem fourIndexPairs_field {users : List UserRec} {p : Nat × Nat}
    (hp : p ∈ fourIndexPairs users) :
    ∃ f : UserRec → Option String,
      p ∈ pairsOfIndex (indexBy f users) ∧
      (∀ u v : UserRec, fieldMatch (f u) (f v) = true →
        sharesField u v = true) := by
  unfold fourIndexPairs at hp
  rcases List.mem_append.1 hp with h | h
  · rcases List.mem_append.1 h with h | h
    · rcases List.mem_append.1 h with h | h
      · refine ⟨fun u => u.email, h, ?_⟩
        intro u v hm
        unfold sharesField
        rw [hm]
        simp
      · refine ⟨fun u => u.phone, h, ?_⟩
        intro u v hm
        unfold sharesField
        rw [hm]
        simp
    · refine ⟨fun u => u.name, h, ?_⟩
      intro u v hm
      unfold sharesField
      rw [hm]
      simp
  · refine ⟨fun u => u.address, h, ?_⟩
    intro u v hm
    unfold sharesField
    rw [hm]
    simp

theorem potentialPairs_mem_ids {users : List UserRec} {p : Nat × Nat}
    (hp : p ∈ potentialPairs users) :
    p.1 ∈ users.map (fun u => u.id) ∧ p.2 ∈ users.map (fun u => u.id) := by
  have hp2 : p ∈ fourIndexPairs users := by
    have := (setList_mem (fourIndexPairs users) [] p).1 hp
    rcases this with h | h
    · simp at h
    · exact h
  obtain ⟨f, hf, _⟩ := fourIndexPairs_field hp2
  obtain ⟨e, he, hpe⟩ := pairsOfIndex_mem.1 hf
  obtain ⟨s, l⟩ := e
  have hl := indexBy_mem he
  obtain ⟨h1, h2⟩ := pairsOfList_mem_comp hpe
  rw [hl] at h1 h2
  constructor
  · obtain ⟨u, hu, hid⟩ := List.mem_map.1 h1
    exact List.mem_map.2 ⟨u, (List.mem_filter.1 hu).1, hid⟩
  · obtain ⟨u, hu, hid⟩ := List.mem_map.1 h2
    exact List.mem_map.2 ⟨u, (List.mem_filter.1 hu).1, hid⟩

theorem judgePairs_eq_unionList (ud : List (Nat × UserRec)) :
    ∀ (ps : List (Nat × Nat)) (uf : UF),
    (∀ p ∈ ps, (alookup ud p.1).isSome ∧ (alookup ud p.2).isSome) →
    judgePairs ud uf ps = unionList uf (ps.filter (pairMatches ud)) := by
  intro ps
  induction ps with
  | nil =>
    intro uf _
    rfl
  | cons p rest ih =>
    intro uf h
    obtain ⟨u1, u2⟩ := p
    obtain ⟨h1, h2⟩ := h _ (List.mem_cons_self _ _)
    obtain ⟨d1, hd1⟩ := Option.isSome_iff_exists.1 h1
    obtain ⟨d2, hd2⟩ := Option.isSome_iff_exists.1 h2
    have hrest : ∀ p ∈ rest, (alookup ud p.1).isSome ∧ (alookup ud p.2).isSome :=
      fun p hp => h p (List.mem_cons_of_mem _ hp)
    by_cases hm : 3 ≤ matchCount d1 d2
    · have hpm : pairMatches ud (u1, u2) = true := by
        unfold pairMatches
        rw [hd1, hd2]
        exact decide_eq_true hm
      simp only [judgePairs, hd1, hd2, if_pos hm, List.filter_cons, hpm,
        if_true]
      show (match UF.union uf u1 u2 with
        | none => none
        | some uf' => judgePairs ud uf' rest) =
        (match UF.union uf u1 u2 with
        | none => none
        | some uf' => unionList uf' (List.filter (pairMatches ud) rest))
      cases UF.union uf u1 u2 with
      | none => rfl
      | some uf' => exact ih uf' hrest
    · have hpm : pairMatches ud (u1, u2) = false := by
        unfold pairMatches
        rw [hd1, hd2]
        exact decide_eq_false hm
      simp only [judgePairs, hd1, hd2, if_neg hm, List.filter_cons, hpm]
      exact ih uf hrest

theorem unionList_spec :
    ∀ (ps : List (Nat × Nat)) (uf : UF), UFWF uf →
    (∀ p ∈ ps, p.1 ∈ akeys uf.parent ∧ p.2 ∈ akeys uf.parent) →
    ∃ uf', unionList uf ps = some uf' ∧ UFWF uf' ∧
      (∀ z, z ∈ akeys uf'.parent ↔ z ∈ akeys uf.parent) ∧
      (∀ p ∈ ps, rootp uf'.parent p.1 = rootp uf'.parent p.2) ∧
      (∀ a b, rootp uf.parent a = rootp uf.parent b →
        rootp uf'.parent a = rootp uf'.parent b) := by
  intro ps
  induction ps with
  | nil =>
    intro uf hwf _
    exact ⟨uf, rfl, hwf, fun z => Iff.rfl,
      fun p hp => absurd hp (List.not_mem_nil p), fun a b h => h⟩
  | cons p rest ih =>
    intro uf hwf hmem
    obtain ⟨x, y⟩ := p
    obtain ⟨uf1, hu, hwf1, hkeys1, rX, rY, hrXY, hform⟩ := union_spec hwf x y
    have hmem1 : ∀ q ∈ rest,
        q.1 ∈ akeys uf1.parent ∧ q.2 ∈ akeys uf1.parent := by
      intro q hq
      obtain ⟨hq1, hq2⟩ := hmem q (List.mem_cons_of_mem _ hq)
      exact ⟨(hkeys1 q.1).2 (Or.inl hq1), (hkeys1 q.2).2 (Or.inl hq2)⟩
    obtain ⟨uf', hul, hwf', hkeys', hpairs', hpres'⟩ := ih uf1 hwf1 hmem1
    obtain ⟨hx1, hy1⟩ := hmem _ (List.mem_cons_self _ _)
    have hmerge : rootp uf1.parent x = rootp uf1.parent y := by
      rw [hform x, hform y]
      rcases hrXY with ⟨hX, hY⟩ | ⟨hX, hY⟩
      · rw [if_pos hY.symm]
        by_cases hc : rootp uf.parent x = rY
        · rw [if_pos hc]
        · rw [if_neg hc, hX]
      · rw [if_pos hY.symm]
        by_cases hc : rootp uf.parent y = rY
        · rw [if_pos hc]
        · rw [if_neg hc, hX]
    refine ⟨uf', ?_, hwf', ?_, ?_, ?_⟩
    · show (match UF.union uf x y with
        | none => none
        | some uf2 => unionList uf2 rest) = _
      rw [hu]
      exact hul
    · intro z
      rw [hkeys' z, hkeys1 z]
      constructor
      · rintro (h | h | h)
        · exact h
        · rw [h]
          exact hx1
        · rw [h]
          exact hy1
      · exact Or.inl
    · intro q hq
      rcases List.mem_cons.1 hq with h | h
      · have hq1 : q.1 = x := by rw [h]
        have hq2 : q.2 = y := by rw [h]
        rw [hq1, hq2]
        exact hpres' x y hmerge
      · exact hpairs' q h
    · intro a b hab
      apply hpres'
      rw [hform a, hform b]
      by_cases hc : rootp uf.parent a = rY
      · rw [if_pos hc, if_pos (by rw [← hab]; exact hc)]
      · rw [if_neg hc, if_neg (fun hh => hc (hab.trans hh)), hab]

end Analyze

namespace Analyze

/-- The state produced by step 1 (registration): every distinct id is
its own singleton root, rank 0, in first-occurrence order. -/
def dedupBase (users : List UserRec) : UF :=
  ⟨selfMap (setList [] (users.map (fun u => u.id))),
    zeroMap (setList [] (users.map (fun u => u.id)))⟩

theorem deduplicate_users_spec (users : List UserRec) :
    ∃ uf1 glist,
      deduplicate_users users = some (glist.length,
        glist.map (fun e => (listMin e.2, sortAsc e.2))) ∧
      UFWF uf1 ∧
      glist = buildGroups (rootp uf1.parent) (akeys uf1.parent) [] ∧
      (∀ z, z ∈ akeys uf1.parent ↔ z ∈ users.map (fun u => u.id)) ∧
      judgePairs (userData [] users) (dedupBase users)
        (potentialPairs users) = some uf1 ∧
      (∀ p ∈ dedupUnionCalls users,
        rootp uf1.parent p.1 = rootp uf1.parent p.2) ∧
      (dedupUnionCalls users = [] → uf1 = dedupBase users) := by
  have hksnd : (setList [] (users.map (fun u => u.id))).Nodup :=
    setList_nodup _ _ List.nodup_nil
  have hreg : registerAll UF.empty (users.map (fun u => u.id)) =
      some (dedupBase users) := by
    unfold dedupBase
    exact registerAll_spec (users.map (fun u => u.id)) [] List.nodup_nil
  have hwf0 : UFWF (dedupBase users) := ufwf_selfMap hksnd
  have hud : ∀ p ∈ potentialPairs users,
      (alookup (userData [] users) p.1).isSome ∧
      (alookup (userData [] users) p.2).isSome := by
    intro p hp
    obtain ⟨h1, h2⟩ := potentialPairs_mem_ids hp
    constructor
    · rw [alookup_isSome, userData_akeys_mem]
      exact Or.inr h1
    · rw [alookup_isSome, userData_akeys_mem]
      exact Or.inr h2
  have hmemcalls : ∀ p ∈ dedupUnionCalls users,
      p.1 ∈ akeys (dedupBase users).parent ∧
      p.2 ∈ akeys (dedupBase users).parent := by
    intro p hp
    have hp2 : p ∈ potentialPairs users := (List.mem_filter.1 hp).1
    obtain ⟨h1, h2⟩ := potentialPairs_mem_ids hp2
    constructor
    · have hm : p.1 ∈ akeys (selfMap (setList []
          (users.map (fun u => u.id)))) := by
        rw [akeys_selfMap]
        exact (setList_mem _ _ _).2 (Or.inr h1)
      exact hm
    · have hm : p.2 ∈ akeys (selfMap (setList []
          (users.map (fun u => u.id)))) := by
        rw [akeys_selfMap]
        exact (setList_mem _ _ _).2 (Or.inr h2)
      exact hm
  obtain ⟨uf1, hul, hwf1, hkeys1, hpairs1, hpres1⟩ :=
    unionList_spec (dedupUnionCalls users) (dedupBase users) hwf0 hmemcalls
  have hjud : judgePairs (userData [] users) (dedupBase users)
      (potentialPairs users) = some uf1 := by
    rw [judgePairs_eq_unionList (userData [] users) (potentialPairs users)
      (dedupBase users) hud]
    exact hul
  obtain ⟨uf2, hgg⟩ := get_groups_spec hwf1
  refine ⟨uf1, buildGroups (rootp uf1.parent) (akeys uf1.parent) [],
    ?_, hwf1, rfl, ?_, hjud, hpairs1, ?_⟩
  · unfold deduplicate_users
    rw [hreg]
    show (match judgePairs (userData [] users) (dedupBase users)
        (potentialPairs users) with
      | none => none
      | some uf1 =>
        match UF.get_groups uf1 with
        | none => none
        | some (_, glist) =>
          some (glist.length,
            glist.map (fun e : Nat × List Nat =>
              (listMin e.2, sortAsc e.2)))) = _
    rw [hjud]
    show (match UF.get_groups uf1 with
      | none => none
      | some (_, glist) =>
        some (glist.length,
          glist.map (fun e : Nat × List Nat =>
            (listMin e.2, sortAsc e.2)))) = _
    rw [hgg]
  · intro z
    rw [hkeys1 z]
    show z ∈ akeys (selfMap (setList [] (users.map (fun u => u.id)))) ↔ _
    rw [akeys_selfMap]
    rw [setList_mem]
    simp
  · intro hnil
    rw [hnil] at hul
    have h' : some (dedupBase users) = some uf1 := hul
    exact (Option.some.inj h').symm

end Analyze

namespace Analyze

theorem buildGroups_entry {ρ : Nat → Nat} {ks : List Nat}
    {e : Nat × List Nat} (he : e ∈ buildGroups ρ ks []) :
    e.2 = ks.filter (fun z => ρ z = e.1) ∧ e.2 ≠ [] := by
  have hnd := buildGroups_nodupkeys ρ ks [] (by simp)
  have hlk : alookup (buildGroups ρ ks []) e.1 = some e.2 :=
    mem_alookup hnd he
  rw [buildGroups_lookup_none ρ ks [] e.1 rfl] at hlk
  by_cases hf : ks.filter (fun z => ρ z = e.1) = []
  · rw [if_pos hf] at hlk
    exact absurd hlk (by simp)
  · rw [if_neg hf] at hlk
    have heq := Option.some.inj hlk
    refine ⟨heq.symm, ?_⟩
    rw [heq.symm]
    exact hf

theorem buildGroups_cover (ρ : Nat → Nat) {ks : List Nat} {i : Nat}
    (hi : i ∈ ks) :
    ∃ e, e ∈ buildGroups ρ ks [] ∧ e.1 = ρ i ∧ i ∈ e.2 := by
  have hfi : i ∈ ks.filter (fun z => ρ z = ρ i) :=
    List.mem_filter.2 ⟨hi, by simp⟩
  have hne : ks.filter (fun z => ρ z = ρ i) ≠ [] := by
    intro h0
    rw [h0] at hfi
    simp at hfi
  have hlk : alookup (buildGroups ρ ks []) (ρ i) =
      some (ks.filter (fun z => ρ z = ρ i)) := by
    rw [buildGroups_lookup_none ρ ks [] (ρ i) rfl, if_neg hne]
  exact ⟨(ρ i, ks.filter (fun z => ρ z = ρ i)), alookup_mem hlk, rfl, hfi⟩

theorem buildGroups_entry_unique {ρ : Nat → Nat} {ks : List Nat}
    {e1 e2 : Nat × List Nat} (h1 : e1 ∈ buildGroups ρ ks [])
    (h2 : e2 ∈ buildGroups ρ ks []) (hk : e1.1 = e2.1) : e1 = e2 := by
  have hnd := buildGroups_nodupkeys ρ ks [] (by simp)
  have hl1 : alookup (buildGroups ρ ks []) e1.1 = some e1.2 :=
    mem_alookup hnd h1
  have hl2 : alookup (buildGroups ρ ks []) e2.1 = some e2.2 :=
    mem_alookup hnd h2
  rw [hk] at hl1
  have hv := Option.some.inj (hl1.symm.trans hl2)
  obtain ⟨a1, b1⟩ := e1
  obtain ⟨a2, b2⟩ := e2
  simp only at hk hv
  rw [hk, hv]

theorem foldl_min_mem :
    ∀ (xs : List Nat) (a : Nat), xs.foldl min a = a ∨ xs.foldl min a ∈ xs := by
  intro xs
  induction xs with
  | nil =>
    intro a
    left
    rfl
  | cons x rest ih =>
    intro a
    show rest.foldl min (min a x) = a ∨ rest.foldl min (min a x) ∈ x :: rest
    rcases ih (min a x) with h | h
    · rcases le_total a x with hc | hc
      · left
        rw [h, min_eq_left hc]
      · right
        rw [h, min_eq_right hc]
        exact List.mem_cons_self _ _
    · right
      exact List.mem_cons_of_mem _ h

theorem foldl_min_le_init :
    ∀ (xs : List Nat) (a : Nat), xs.foldl min a ≤ a := by
  intro xs
  induction xs with
  | nil =>
    intro a
    exact le_refl a
  | cons x rest ih =>
    intro a
    show rest.foldl min (min a x) ≤ a
    exact le_trans (ih (min a x)) (min_le_left a x)

theorem foldl_min_le_mem :
    ∀ (xs : List Nat) (a x : Nat), x ∈ xs → xs.foldl min a ≤ x := by
  intro xs
  induction xs with
  | nil =>
    intro a x hx
    simp at hx
  | cons y rest ih =>
    intro a x hx
    show rest.foldl min (min a y) ≤ x
    rcases List.mem_cons.1 hx with h | h
    · rw [h]
      exact le_trans (foldl_min_le_init rest (min a y)) (min_le_right a y)
    · exact ih (min a y) x h

theorem listMin_mem {l : List Nat} (h : l ≠ []) : listMin l ∈ l := by
  cases l with
  | nil => exact absurd rfl h
  | cons x xs =>
    show xs.foldl min x ∈ x :: xs
    rcases foldl_min_mem xs x with h1 | h1
    · rw [h1]
      exact List.mem_cons_self _ _
    · exact List.mem_cons_of_mem _ h1

theorem listMin_le {l : List Nat} {x : Nat} (hx : x ∈ l) : listMin l ≤ x := by
  cases l with
  | nil => simp at hx
  | cons y xs =>
    show xs.foldl min y ≤ x
    rcases List.mem_cons.1 hx with h | h
    · rw [h]
      exact foldl_min_le_init xs y
    · exact foldl_min_le_mem xs y x h

theorem sortAsc_mem {l : List Nat} {x : Nat} : x ∈ sortAsc l ↔ x ∈ l :=
  (List.perm_insertionSort (· ≤ ·) l).mem_iff

theorem sortAsc_sorted (l : List Nat) : List.Sorted (· ≤ ·) (sortAsc l) :=
  List.sorted_insertionSort (· ≤ ·) l

theorem sortAsc_nodup {l : List Nat} (h : l.Nodup) : (sortAsc l).Nodup :=
  ((List.perm_insertionSort (· ≤ ·) l).nodup_iff).2 h

theorem fieldKey_some {f : UserRec → Option String} {u : UserRec}
    {s : String} : fieldKey f u = some s ↔ f u = some s ∧ s ≠ "" := by
  unfold fieldKey
  cases hf : f u with
  | none => simp
  | some t =>
    show (if t = "" then none else some t) = some s ↔
      some t = some s ∧ s ≠ ""
    by_cases ht : t = ""
    · subst ht
      rw [if_pos rfl]
      constructor
      · intro h
        simp at h
      · rintro ⟨h1, h2⟩
        exact absurd (Option.some.inj h1).symm h2
    · rw [if_neg ht]
      constructor
      · intro h
        have hts := Option.some.inj h
        refine ⟨by rw [hts], ?_⟩
        rw [← hts]
        exact ht
      · rintro ⟨h1, _⟩
        exact h1

theorem fieldMatch_of_key {f : UserRec → Option String} {u v : UserRec}
    {s : String} (hu : fieldKey f u = some s) (hv : fieldKey f v = some s) :
    fieldMatch (f u) (f v) = true := by
  obtain ⟨hu1, hs⟩ := fieldKey_some.1 hu
  obtain ⟨hv1, _⟩ := fieldKey_some.1 hv
  unfold fieldMatch fpresent
  rw [hu1, hv1]
  simp [hs]

theorem fieldMatch_elim {v1 v2 : Option String}
    (h : fieldMatch v1 v2 = true) :
    ∃ s, v1 = some s ∧ v2 = some s ∧ s ≠ "" := by
  unfold fieldMatch fpresent at h
  cases v1 with
  | none => simp at h
  | some s1 =>
    cases v2 with
    | none => simp at h
    | some s2 =>
      rw [Bool.and_eq_true, Bool.and_eq_true] at h
      obtain ⟨⟨hA, hB⟩, hC⟩ := h
      have hs : s1 = s2 := Option.some.inj (eq_of_beq hC)
      have hne : s1 ≠ "" := by
        intro he
        rw [he] at hA
        simp at hA
      refine ⟨s1, rfl, ?_, hne⟩
      rw [hs]

theorem fieldKey_of {f : UserRec → Option String} {u : UserRec} {s : String}
    (h1 : f u = some s) (h2 : s ≠ "") : fieldKey f u = some s := by
  unfold fieldKey
  rw [h1]
  show (if s = "" then none else some s) = some s
  rw [if_neg h2]

theorem bucket_nodup {f : UserRec → Option String} {users : List UserRec}
    (hN : (users.map (fun u => u.id)).Nodup) {s : String} {l : List Nat}
    (h : (s, l) ∈ indexBy f users) : l.Nodup := by
  rw [indexBy_mem h]
  have hsub : List.Sublist
      ((users.filter (fun u => fieldKey f u = some s)).map (fun u => u.id))
      (users.map (fun u => u.id)) :=
    List.Sublist.map (fun u => u.id) (List.filter_sublist users)
  exact List.Nodup.sublist hsub hN

theorem potentialPairs_lt {users : List UserRec}
    (hN : (users.map (fun u => u.id)).Nodup) {p : Nat × Nat}
    (hp : p ∈ potentialPairs users) : p.1 < p.2 := by
  have hp2 : p ∈ fourIndexPairs users := by
    rcases (setList_mem (fourIndexPairs users) [] p).1 hp with h | h
    · simp at h
    · exact h
  obtain ⟨f, hf, _⟩ := fourIndexPairs_field hp2
  obtain ⟨e, he, hpe⟩ := pairsOfIndex_mem.1 hf
  obtain ⟨s, l⟩ := e
  have hnd : l.Nodup := bucket_nodup hN he
  have hp3 : (p.1, p.2) ∈ pairsOfList l := hpe
  exact ((pairsOfList_mem_nodup hnd).1 hp3).1

end Analyze

namespace Analyze

theorem potentialPairs_lookup_some (users : List UserRec) :
    ∀ p ∈ potentialPairs users,
    (alookup (userData [] users) p.1).isSome ∧
    (alookup (userData [] users) p.2).isSome := by
  intro p hp
  obtain ⟨h1, h2⟩ := potentialPairs_mem_ids hp
  constructor
  · rw [alookup_isSome, userData_akeys_mem]
    exact Or.inr h1
  · rw [alookup_isSome, userData_akeys_mem]
    exact Or.inr h2

theorem pairMatches_eval {ud : List (Nat × UserRec)} {a b : Nat}
    {da db : UserRec} (ha : alookup ud a = some da)
    (hb : alookup ud b = some db) :
    pairMatches ud (a, b) = decide (3 ≤ matchCount da db) := by
  unfold pairMatches
  simp only [ha, hb]

theorem pair_of_shared_field {users : List UserRec}
    (hN : (users.map (fun u => u.id)).Nodup)
    (f : UserRec → Option String) {u v : UserRec} {a b : Nat}
    (hu : u ∈ users) (hv : v ∈ users) (hua : u.id = a) (hvb : v.id = b)
    (hab : a < b) (hm : fieldMatch (f u) (f v) = true) :
    (a, b) ∈ pairsOfIndex (indexBy f users) := by
  obtain ⟨s, hfu, hfv, hs⟩ := fieldMatch_elim hm
  have hku : fieldKey f u = some s := fieldKey_of hfu hs
  have hkv : fieldKey f v = some s := fieldKey_of hfv hs
  obtain ⟨l, hl, hul⟩ := indexBy_bucket_exists hu hku
  obtain ⟨l2, hl2, hvl2⟩ := indexBy_bucket_exists hv hkv
  have hleq : l = l2 := by
    rw [indexBy_mem hl, indexBy_mem hl2]
  rw [← hleq] at hvl2
  have hnd : l.Nodup := bucket_nodup hN hl
  apply pairsOfIndex_mem.2
  refine ⟨(s, l), hl, ?_⟩
  show (a, b) ∈ pairsOfList l
  apply (pairsOfList_mem_nodup hnd).2
  refine ⟨hab, ?_, ?_⟩
  · rw [← hua]
    exact hul
  · rw [← hvb]
    exact hvl2

/-- C1: in `deduplicate_users`, judging the candidate pairs is exactly
folding `union` over the candidate pairs whose match count is at least 3
(`dedupUnionCalls`), and a candidate pair of two input records is passed
to `union` if and only if it is a candidate pair and the two records
agree on at least 3 of the four fields where both have a present value —
so a pair with 2 or fewer field matches is never merged. -/
theorem dedup_judge_threshold (users : List UserRec)
    (hN : (users.map (fun u => u.id)).Nodup) :
    (∀ uf : UF, judgePairs (userData [] users) uf (potentialPairs users) =
      unionList uf (dedupUnionCalls users)) ∧
    (∀ u v : UserRec, u ∈ users → v ∈ users →
      ((u.id, v.id) ∈ dedupUnionCalls users ↔
        ((u.id, v.id) ∈ potentialPairs users ∧ 3 ≤ matchCount u v))) := by
  constructor
  · intro uf
    exact judgePairs_eq_unionList _ _ uf (potentialPairs_lookup_some users)
  · intro u v hu hv
    show (u.id, v.id) ∈ (potentialPairs users).filter
      (pairMatches (userData [] users)) ↔ _
    rw [List.mem_filter, pairMatches_eval (userData_lookup_self hN hu)
      (userData_lookup_self hN hv)]
    simp

/-- C3: the group mapping returned by `deduplicate_users` partitions the
input identifiers: an id is in some group's member list exactly when it
is an input id, member lists have no duplicates, and no id lies in two
distinct groups. -/
theorem dedup_partition (users : List UserRec) :
    ∃ n ug, deduplicate_users users = some (n, ug) ∧
      (∀ i, (∃ e ∈ ug, i ∈ e.2) ↔ i ∈ users.map (fun u => u.id)) ∧
      (∀ e ∈ ug, e.2.Nodup) ∧
      (∀ e1 ∈ ug, ∀ e2 ∈ ug, ∀ i, i ∈ e1.2 → i ∈ e2.2 → e1 = e2) := by
  obtain ⟨uf1, glist, hded, hwf1, hgl, hkeys, hjud, hpairs, hnil⟩ :=
    deduplicate_users_spec users
  refine ⟨glist.length, glist.map (fun e => (listMin e.2, sortAsc e.2)),
    hded, ?_, ?_, ?_⟩
  · intro i
    constructor
    · rintro ⟨e, he, hie⟩
      obtain ⟨g, hg, hge⟩ := List.mem_map.1 he
      have hie2 : i ∈ sortAsc g.2 := by
        rw [← hge] at hie
        exact hie
      have hie3 : i ∈ g.2 := sortAsc_mem.1 hie2
      rw [hgl] at hg
      obtain ⟨hfil, hne⟩ := buildGroups_entry hg
      rw [hfil] at hie3
      exact (hkeys i).1 (List.mem_filter.1 hie3).1
    · intro hi
      have hi2 : i ∈ akeys uf1.parent := (hkeys i).2 hi
      obtain ⟨g, hg, hg1, hg2⟩ := buildGroups_cover (rootp uf1.parent) hi2
      rw [← hgl] at hg
      refine ⟨(listMin g.2, sortAsc g.2), List.mem_map.2 ⟨g, hg, rfl⟩, ?_⟩
      show i ∈ sortAsc g.2
      exact sortAsc_mem.2 hg2
  · intro e he
    obtain ⟨g, hg, hge⟩ := List.mem_map.1 he
    rw [hgl] at hg
    obtain ⟨hfil, hne⟩ := buildGroups_entry hg
    rw [← hge]
    show (sortAsc g.2).Nodup
    apply sortAsc_nodup
    rw [hfil]
    exact hwf1.pwf.nodup.filter _
  · intro e1 he1 e2 he2 i hi1 hi2
    obtain ⟨g1, hg1, hge1⟩ := List.mem_map.1 he1
    obtain ⟨g2, hg2, hge2⟩ := List.mem_map.1 he2
    rw [hgl] at hg1 hg2
    obtain ⟨hf1, _⟩ := buildGroups_entry hg1
    obtain ⟨hf2, _⟩ := buildGroups_entry hg2
    have hi1' : i ∈ g1.2 := by
      rw [← hge1] at hi1
      exact sortAsc_mem.1 hi1
    have hi2' : i ∈ g2.2 := by
      rw [← hge2] at hi2
      exact sortAsc_mem.1 hi2
    have hk1 : rootp uf1.parent i = g1.1 := by
      rw [hf1] at hi1'
      exact of_decide_eq_true (List.mem_filter.1 hi1').2
    have hk2 : rootp uf1.parent i = g2.1 := by
      rw [hf2] at hi2'
      exact of_decide_eq_true (List.mem_filter.1 hi2').2
    have hgg : g1 = g2 :=
      buildGroups_entry_unique hg1 hg2 (hk1.symm.trans hk2)
    rw [← hge1, ← hge2, hgg]

/-- C4: candidate pair generation emits exactly the `(min, max)`-ordered
pairs of distinct input records that share at least one present,
non-empty normalized field value, each at most once. -/
theorem dedup_candidate_pairs (users : List UserRec)
    (hN : (users.map (fun u => u.id)).Nodup) :
    (potentialPairs users).Nodup ∧
    (∀ a b : Nat, ((a, b) ∈ potentialPairs users ↔
      (a < b ∧ ∃ u v, u ∈ users ∧ v ∈ users ∧ u.id = a ∧ v.id = b ∧
        sharesField u v = true))) := by
  constructor
  · exact setList_nodup _ _ List.nodup_nil
  · intro a b
    constructor
    · intro hp
      have hlt : a < b := potentialPairs_lt hN hp
      refine ⟨hlt, ?_⟩
      have hp2 : (a, b) ∈ fourIndexPairs users := by
        rcases (setList_mem (fourIndexPairs users) [] (a, b)).1 hp with h | h
        · simp at h
        · exact h
      obtain ⟨f, hf, hmono⟩ := fourIndexPairs_field hp2
      obtain ⟨e, he, hpe⟩ := pairsOfIndex_mem.1 hf
      obtain ⟨s, l⟩ := e
      have hnd : l.Nodup := bucket_nodup hN he
      obtain ⟨_, hal, hbl⟩ := (pairsOfList_mem_nodup hnd).1 hpe
      have hleq := indexBy_mem he
      rw [hleq] at hal hbl
      obtain ⟨u, hu, hua⟩ := List.mem_map.1 hal
      obtain ⟨v, hv, hvb⟩ := List.mem_map.1 hbl
      obtain ⟨hu1, hu2⟩ := List.mem_filter.1 hu
      obtain ⟨hv1, hv2⟩ := List.mem_filter.1 hv
      exact ⟨u, v, hu1, hv1, hua, hvb, hmono u v
        (fieldMatch_of_key (of_decide_eq_true hu2) (of_decide_eq_true hv2))⟩
    · rintro ⟨hab, u, v, hu, hv, hua, hvb, hsh⟩
      have hone : fieldMatch u.email v.email = true ∨
          fieldMatch u.phone v.phone = true ∨
          fieldMatch u.name v.name = true ∨
          fieldMatch u.address v.address = true := by
        unfold sharesField at hsh
        simp only [Bool.or_eq_true] at hsh
        rcases hsh with ((h | h) | h) | h
        · exact Or.inl h
        · exact Or.inr (Or.inl h)
        · exact Or.inr (Or.inr (Or.inl h))
        · exact Or.inr (Or.inr (Or.inr h))
      apply (setList_mem _ _ _).2
      right
      unfold fourIndexPairs
      rcases hone with h | h | h | h
      · exact List.mem_append.2 (Or.inl (List.mem_append.2 (Or.inl
          (List.mem_append.2 (Or.inl
            (pair_of_shared_field hN _ hu hv hua hvb hab h))))))
      · exact List.mem_append.2 (Or.inl (List.mem_append.2 (Or.inl
          (List.mem_append.2 (Or.inr
            (pair_of_shared_field hN _ hu hv hua hvb hab h))))))
      · exact List.mem_append.2 (Or.inl (List.mem_append.2 (Or.inr
          (pair_of_shared_field hN _ hu hv hua hvb hab h))))
      · exact List.mem_append.2 (Or.inr
          (pair_of_shared_field hN _ hu hv hua hvb hab h))

/-- C5: in the returned mapping every group is keyed by the minimum
identifier among its members (the key is a member and a lower bound) and
every member list is sorted ascending. -/
theorem dedup_min_key_sorted (users : List UserRec) (n : Nat)
    (ug : List (Nat × List Nat))
    (h : deduplicate_users users = some (n, ug)) :
    ∀ e ∈ ug, e.1 ∈ e.2 ∧ (∀ x ∈ e.2, e.1 ≤ x) ∧
      List.Sorted (· ≤ ·) e.2 := by
  obtain ⟨uf1, glist, hded, hwf1, hgl, hkeys, hjud, hpairs, hnil⟩ :=
    deduplicate_users_spec users
  have hpair := Option.some.inj (hded.symm.trans h)
  have hug : glist.map (fun e => (listMin e.2, sortAsc e.2)) = ug :=
    congrArg Prod.snd hpair
  intro e he
  rw [← hug] at he
  obtain ⟨g, hg, hge⟩ := List.mem_map.1 he
  rw [hgl] at hg
  obtain ⟨hfil, hne⟩ := buildGroups_entry hg
  have hmem : listMin g.2 ∈ g.2 := listMin_mem hne
  refine ⟨?_, ?_, ?_⟩
  · rw [← hge]
    show listMin g.2 ∈ sortAsc g.2
    exact sortAsc_mem.2 hmem
  · intro x hx
    rw [← hge] at hx
    have hx2 : x ∈ sortAsc g.2 := hx
    rw [← hge]
    show listMin g.2 ≤ x
    exact listMin_le (sortAsc_mem.1 hx2)
  · rw [← hge]
    exact sortAsc_sorted g.2

/-- C6: the returned unique-person count equals the number of groups in
the returned mapping, is at most the number of input records, and equals
it exactly when the run made no union call. -/
theorem dedup_unique_count (users : List UserRec)
    (hN : (users.map (fun u => u.id)).Nodup) :
    ∃ n ug, deduplicate_users users = some (n, ug) ∧ n = ug.length ∧
      n ≤ users.length ∧
      (n = users.length ↔ dedupUnionCalls users = []) := by
  obtain ⟨uf1, glist, hded, hwf1, hgl, hkeys, hjud, hpairs, hnil⟩ :=
    deduplicate_users_spec users
  have hkslen : (akeys uf1.parent).length = users.length := by
    have h1 : (akeys uf1.parent).toFinset =
        (users.map (fun u => u.id)).toFinset := by
      ext z
      rw [List.mem_toFinset, List.mem_toFinset]
      exact hkeys z
    calc (akeys uf1.parent).length
        = (akeys uf1.parent).toFinset.card :=
          (List.toFinset_card_of_nodup hwf1.pwf.nodup).symm
      _ = (users.map (fun u => u.id)).toFinset.card := by rw [h1]
      _ = (users.map (fun u => u.id)).length :=
          List.toFinset_card_of_nodup hN
      _ = users.length := List.length_map users _
  have hglen : glist.length =
      ((akeys uf1.parent).map (rootp uf1.parent)).toFinset.card := by
    calc glist.length = (akeys glist).length := (length_akeys glist).symm
      _ = (setList [] ((akeys uf1.parent).map (rootp uf1.parent))).length := by
          rw [hgl, buildGroups_akeys]
          rfl
      _ = _ := length_setList_nil _
  refine ⟨glist.length, glist.map (fun e => (listMin e.2, sortAsc e.2)),
    hded, (List.length_map _ _).symm, ?_, ?_⟩
  · calc glist.length
        = ((akeys uf1.parent).map (rootp uf1.parent)).toFinset.card := hglen
      _ ≤ ((akeys uf1.parent).map (rootp uf1.parent)).length :=
          List.toFinset_card_le _
      _ = (akeys uf1.parent).length := List.length_map _ _
      _ = users.length := hkslen
  · constructor
    · intro heq
      cases hcalls : dedupUnionCalls users with
      | nil => rfl
      | cons p rest =>
        exfalso
        have hpmem : p ∈ dedupUnionCalls users := by
          rw [hcalls]
          exact List.mem_cons_self _ _
        have hpp : p ∈ potentialPairs users := (List.mem_filter.1 hpmem).1
        have hlt := potentialPairs_lt hN hpp
        have hroots := hpairs p hpmem
        obtain ⟨h1, h2⟩ := potentialPairs_mem_ids hpp
        have hk1 : p.1 ∈ akeys uf1.parent := (hkeys p.1).2 h1
        have hk2 : p.2 ∈ akeys uf1.parent := (hkeys p.2).2 h2
        have hnotnodup :
            ¬ ((akeys uf1.parent).map (rootp uf1.parent)).Nodup := by
          intro hnd
          have := List.inj_on_of_nodup_map hnd hk1 hk2 hroots
          omega
        have hlt2 := toFinset_card_lt_of_not_nodup hnotnodup
        rw [List.length_map] at hlt2
        rw [hglen] at heq
        omega
    · intro hnil2
      have huf := hnil hnil2
      have hid : ∀ z, rootp uf1.parent z = z := by
        intro z
        rw [huf]
        exact rootp_selfMap _ z
      have hmapid : (akeys uf1.parent).map (rootp uf1.parent) =
          akeys uf1.parent := by
        have hcg : ∀ a ∈ akeys uf1.parent, rootp uf1.parent a = a :=
          fun a _ => hid a
        calc (akeys uf1.parent).map (rootp uf1.parent)
            = (akeys uf1.parent).map id := List.map_congr_left hcg
          _ = akeys uf1.parent := List.map_id _
      rw [hglen, hmapid, List.toFinset_card_of_nodup hwf1.pwf.nodup, hkslen]

end Analyze

namespace Analyze

/-- An order record as consumed by `find_top_customer`: a user id and a
paid price. Prices are modeled as exact rationals. -/
structure OrderRec where
  user_id : Nat
  paid_price : ℚ
deriving DecidableEq

/-- The summed paid price of one user's orders
(`orders_df.groupby('user_id')['paid_price'].sum()` for one key). -/
def sumFor (orders : List OrderRec) (u : Nat) : ℚ :=
  ((orders.filter (fun o => o.user_id == u)).map (fun o => o.paid_price)).sum

/-- The distinct user ids appearing in the orders, in ascending order
(pandas `groupby` sorts its keys). -/
def uidsOf (orders : List OrderRec) : List Nat :=
  sortAsc (setList [] (orders.map (fun o => o.user_id)))

/-- Step 1 of `find_top_customer`: the per-user spending dict
`orders_df.groupby('user_id')['paid_price'].sum().to_dict()`. -/
def userSpending (orders : List OrderRec) : List (Nat × ℚ) :=
  (uidsOf orders).map (fun u => (u, sumFor orders u))

/-- Step 2 of `find_top_customer`: invert the group mapping —
`user_to_canonical[uid] = canonical` for each member of each group. -/
def userToCanonical (ug : List (Nat × List Nat)) : List (Nat × Nat) :=
  ug.foldl (fun acc e => e.2.foldl (fun acc2 uid => aset acc2 uid e.1) acc) []

/-- `user_to_canonical.get(uid, uid)`: the canonical id of a user id,
defaulting to the id itself. -/
def canonOf (utc : List (Nat × Nat)) (uid : Nat) : Nat :=
  (alookup utc uid).getD uid

/-- Step 3 of `find_top_customer`: aggregate spending per canonical id
into a `defaultdict(float)`. -/
def canonicalSpending (utc : List (Nat × Nat)) (us : List (Nat × ℚ)) :
    List (Nat × ℚ) :=
  us.foldl (fun cs e =>
    aset cs (canonOf utc e.1) ((alookup cs (canonOf utc e.1)).getD 0 + e.2)) []

/-- Python `max(iterable, key=...)` over a nonempty sequence of
(key, value) pairs: the first pair of maximal value. -/
def argmaxFold (b : Nat × ℚ) (l : List (Nat × ℚ)) : Nat × ℚ :=
  l.foldl (fun best x => if best.2 < x.2 then x else best) b

/-- Round to the nearest integer, ties to even (Python `round`). -/
def roundHalfEven (q : ℚ) : ℤ :=
  if q - Int.floor q < 1/2 then Int.floor q
  else if (1 : ℚ)/2 < q - Int.floor q then Int.floor q + 1
  else if Int.floor q % 2 = 0 then Int.floor q else Int.floor q + 1

/-- Python `round(x, 2)`. -/
def round2 (q : ℚ) : ℚ := (roundHalfEven (q * 100) : ℚ) / 100

/-- `find_top_customer`: per-user spending, canonical aggregation,
`max` by aggregated spending (a `ValueError` on an empty dict, modeled
as `none`), then the winning group's members sorted, with the rounded
total. -/
def find_top_customer (orders : List OrderRec) (ug : List (Nat × List Nat)) :
    Option (List Nat × ℚ) :=
  match canonicalSpending (userToCanonical ug) (userSpending orders) with
  | [] => none
  | e :: rest =>
    some (sortAsc ((alookup ug (argmaxFold e rest).1).getD [(argmaxFold e rest).1]),
      round2 ((alookup (canonicalSpending (userToCanonical ug) (userSpending orders))
        (argmaxFold e rest).1).getD 0))

theorem alookup_map_self (f : Nat → ℚ) (l : List Nat) (u : Nat) :
    alookup (l.map (fun x => (x, f x))) u =
      if u ∈ l then some (f u) else none := by
  induction l with
  | nil => rfl
  | cons x rest ih =>
    by_cases hx : x = u
    · subst hx
      rw [if_pos (List.mem_cons_self _ _)]
      show (if x = x then some (f x) else alookup (rest.map (fun x => (x, f x))) x)
        = some (f x)
      rw [if_pos rfl]
    · show (if x = u then some (f x) else alookup (rest.map (fun x => (x, f x))) u)
        = _
      rw [if_neg hx, ih]
      by_cases hu : u ∈ rest
      · rw [if_pos hu, if_pos (List.mem_cons_of_mem _ hu)]
      · rw [if_neg hu, if_neg (fun hc => by
          rcases List.mem_cons.1 hc with h1 | h1
          · exact hx h1.symm
          · exact hu h1)]

theorem userSpending_lookup (orders : List OrderRec) (u : Nat) :
    alookup (userSpending orders) u =
      if u ∈ orders.map (fun o => o.user_id) then some (sumFor orders u)
      else none := by
  unfold userSpending
  rw [alookup_map_self]
  have hiff : u ∈ uidsOf orders ↔ u ∈ orders.map (fun o => o.user_id) := by
    unfold uidsOf
    rw [sortAsc_mem, setList_mem]
    simp
  by_cases h : u ∈ orders.map (fun o => o.user_id)
  · rw [if_pos (hiff.2 h), if_pos h]
  · rw [if_neg (fun hc => h (hiff.1 hc)), if_neg h]

theorem foldl_aset_const_not_mem {l : List Nat} {c : Nat} {u : Nat}
    (h : u ∉ l) : ∀ (acc : List (Nat × Nat)),
    alookup (l.foldl (fun acc2 uid => aset acc2 uid c) acc) u = alookup acc u := by
  induction l with
  | nil => intro acc; rfl
  | cons x rest ih =>
    intro acc
    have hx : x ≠ u := fun he => h (he ▸ List.mem_cons_self x rest)
    rw [List.foldl_cons, ih (fun hu => h (List.mem_cons_of_mem _ hu)),
      alookup_aset_ne _ _ hx]

theorem foldl_aset_const_mem {l : List Nat} {c : Nat} {u : Nat}
    (h : u ∈ l) : ∀ (acc : List (Nat × Nat)),
    alookup (l.foldl (fun acc2 uid => aset acc2 uid c) acc) u = some c := by
  induction l with
  | nil => cases h
  | cons x rest ih =>
    intro acc
    rw [List.foldl_cons]
    by_cases hr : u ∈ rest
    · exact ih hr _
    · have hx : u = x := by
        rcases List.mem_cons.1 h with h1 | h1
        · exact h1
        · exact absurd h1 hr
      subst hx
      rw [foldl_aset_const_not_mem hr, alookup_aset_self]

theorem utcAux_not_mem {u : Nat} :
    ∀ (ug : List (Nat × List Nat)), (∀ e ∈ ug, u ∉ e.2) →
    ∀ (acc : List (Nat × Nat)),
    alookup (ug.foldl (fun acc e => e.2.foldl (fun acc2 uid => aset acc2 uid e.1) acc)
      acc) u = alookup acc u := by
  intro ug
  induction ug with
  | nil => intro _ acc; rfl
  | cons g rest ih =>
    intro h acc
    rw [List.foldl_cons, ih (fun e he => h e (List.mem_cons_of_mem _ he)),
      foldl_aset_const_not_mem (h g (List.mem_cons_self _ _))]

theorem utcAux_mem {u : Nat} :
    ∀ (ug : List (Nat × List Nat)) (g : Nat × List Nat), g ∈ ug → u ∈ g.2 →
    (∀ e1 ∈ ug, ∀ e2 ∈ ug, ∀ i, i ∈ e1.2 → i ∈ e2.2 → e1 = e2) →
    ∀ (acc : List (Nat × Nat)),
    alookup (ug.foldl (fun acc e => e.2.foldl (fun acc2 uid => aset acc2 uid e.1) acc)
      acc) u = some g.1 := by
  intro ug
  induction ug with
  | nil => intro g hg _ _ _; cases hg
  | cons g0 rest ih =>
    intro g hg hu hdisj acc
    rw [List.foldl_cons]
    by_cases hr : ∃ e ∈ rest, u ∈ e.2
    · obtain ⟨e, he, hue⟩ := hr
      have hge : e = g := hdisj e (List.mem_cons_of_mem _ he) g hg u hue hu
      rw [← hge]
      exact ih e he hue (fun e1 h1 e2 h2 => hdisj e1 (List.mem_cons_of_mem _ h1)
        e2 (List.mem_cons_of_mem _ h2)) _
    · push_neg at hr
      have hgg0 : g = g0 := by
        rcases List.mem_cons.1 hg with h1 | h1
        · exact h1
        · exact absurd hu (hr g h1)
      subst hgg0
      rw [utcAux_not_mem rest hr, foldl_aset_const_mem hu]

theorem canonOf_not_mem {ug : List (Nat × List Nat)} {u : Nat}
    (h : ∀ e ∈ ug, u ∉ e.2) : canonOf (userToCanonical ug) u = u := by
  unfold canonOf userToCanonical
  rw [utcAux_not_mem ug h]
  rfl

theorem canonOf_mem {ug : List (Nat × List Nat)} {g : Nat × List Nat} {u : Nat}
    (hg : g ∈ ug) (hu : u ∈ g.2)
    (hdisj : ∀ e1 ∈ ug, ∀ e2 ∈ ug, ∀ i, i ∈ e1.2 → i ∈ e2.2 → e1 = e2) :
    canonOf (userToCanonical ug) u = g.1 := by
  unfold canonOf userToCanonical
  rw [utcAux_mem ug g hg hu hdisj]
  rfl

theorem canonicalSpending_fold (utc : List (Nat × Nat)) (c : Nat) :
    ∀ (us cs : List (Nat × ℚ)),
    alookup (us.foldl (fun cs e =>
      aset cs (canonOf utc e.1) ((alookup cs (canonOf utc e.1)).getD 0 + e.2)) cs) c =
    if ∃ e ∈ us, canonOf utc e.1 = c then
      some ((alookup cs c).getD 0 +
        ((us.filter (fun e => canonOf utc e.1 = c)).map (fun e => e.2)).sum)
    else alookup cs c := by
  intro us
  induction us with
  | nil =>
    intro cs
    rw [if_neg]
    · rfl
    · rintro ⟨e, he, _⟩
      cases he
  | cons e0 rest ih =>
    intro cs
    rw [List.foldl_cons, ih]
    by_cases hc : canonOf utc e0.1 = c
    · have hfil : (e0 :: rest).filter (fun e => decide (canonOf utc e.1 = c)) =
          e0 :: rest.filter (fun e => decide (canonOf utc e.1 = c)) := by
        simp [List.filter_cons, hc]
      have hout : ∃ e ∈ e0 :: rest, canonOf utc e.1 = c :=
        ⟨e0, List.mem_cons_self _ _, hc⟩
      rw [if_pos hout, hfil, List.map_cons, List.sum_cons, hc]
      by_cases hrest : ∃ e ∈ rest, canonOf utc e.1 = c
      · rw [if_pos hrest, alookup_aset_self, Option.getD_some, add_assoc]
      · rw [if_neg hrest, alookup_aset_self]
        have hS : rest.filter (fun e => decide (canonOf utc e.1 = c)) = [] := by
          rw [List.filter_eq_nil_iff]
          intro e he hpe
          exact hrest ⟨e, he, of_decide_eq_true hpe⟩
        rw [hS]
        show some ((alookup cs c).getD 0 + e0.2) =
          some ((alookup cs c).getD 0 + (e0.2 + ([] : List ℚ).sum))
        rw [List.sum_nil, add_zero]
    · have hfil2 : (e0 :: rest).filter (fun e => decide (canonOf utc e.1 = c)) =
          rest.filter (fun e => decide (canonOf utc e.1 = c)) := by
        simp [List.filter_cons, hc]
      rw [alookup_aset_ne _ _ hc, hfil2]
      by_cases hrest : ∃ e ∈ rest, canonOf utc e.1 = c
      · have hout : ∃ e ∈ e0 :: rest, canonOf utc e.1 = c := by
          obtain ⟨e, he, hpe⟩ := hrest
          exact ⟨e, List.mem_cons_of_mem _ he, hpe⟩
        rw [if_pos hrest, if_pos hout]
      · rw [if_neg hrest, if_neg (fun hc2 => by
          obtain ⟨e, he, hpe⟩ := hc2
          rcases List.mem_cons.1 he with h1 | h1
          · exact hc (h1 ▸ hpe)
          · exact hrest ⟨e, h1, hpe⟩)]

theorem canonicalSpending_lookup (utc : List (Nat × Nat))
    (us : List (Nat × ℚ)) (c : Nat) :
    alookup (canonicalSpending utc us) c =
    if ∃ e ∈ us, canonOf utc e.1 = c then
      some (((us.filter (fun e => canonOf utc e.1 = c)).map (fun e => e.2)).sum)
    else none := by
  unfold canonicalSpending
  rw [canonicalSpending_fold]
  by_cases h : ∃ e ∈ us, canonOf utc e.1 = c
  · rw [if_pos h, if_pos h]
    show some ((0 : ℚ) + _) = _
    rw [zero_add]
  · rw [if_neg h, if_neg h]
    rfl

theorem canonicalSpending_nodupkeys (utc : List (Nat × Nat)) :
    ∀ (us cs : List (Nat × ℚ)), (akeys cs).Nodup →
    (akeys (us.foldl (fun cs e =>
      aset cs (canonOf utc e.1) ((alookup cs (canonOf utc e.1)).getD 0 + e.2))
      cs)).Nodup := by
  intro us
  induction us with
  | nil => intro cs h; exact h
  | cons e0 rest ih =>
    intro cs h
    rw [List.foldl_cons]
    exact ih _ (aset_nodupKeys h)

theorem argmaxFold_mem : ∀ (l : List (Nat × ℚ)) (b : Nat × ℚ),
    argmaxFold b l = b ∨ argmaxFold b l ∈ l := by
  intro l
  induction l with
  | nil => intro b; exact Or.inl rfl
  | cons x rest ih =>
    intro b
    have he : argmaxFold b (x :: rest) =
        argmaxFold (if b.2 < x.2 then x else b) rest := rfl
    rw [he]
    rcases ih (if b.2 < x.2 then x else b) with h | h
    · rw [h]
      by_cases hbx : b.2 < x.2
      · rw [if_pos hbx]
        exact Or.inr (List.mem_cons_self _ _)
      · rw [if_neg hbx]
        exact Or.inl rfl
    · exact Or.inr (List.mem_cons_of_mem _ h)

theorem argmaxFold_ge_init : ∀ (l : List (Nat × ℚ)) (b : Nat × ℚ),
    b.2 ≤ (argmaxFold b l).2 := by
  intro l
  induction l with
  | nil => intro b; exact le_refl _
  | cons x rest ih =>
    intro b
    have he : argmaxFold b (x :: rest) =
        argmaxFold (if b.2 < x.2 then x else b) rest := rfl
    rw [he]
    refine le_trans ?_ (ih _)
    by_cases hbx : b.2 < x.2
    · rw [if_pos hbx]
      exact le_of_lt hbx
    · rw [if_neg hbx]

theorem argmaxFold_ge_mem : ∀ (l : List (Nat × ℚ)) (b : Nat × ℚ),
    ∀ x ∈ l, x.2 ≤ (argmaxFold b l).2 := by
  intro l
  induction l with
  | nil => intro b x hx; cases hx
  | cons y rest ih =>
    intro b x hx
    have he : argmaxFold b (y :: rest) =
        argmaxFold (if b.2 < y.2 then y else b) rest := rfl
    rw [he]
    rcases List.mem_cons.1 hx with h1 | h1
    · subst h1
      refine le_trans ?_ (argmaxFold_ge_init rest _)
      by_cases hbx : b.2 < x.2
      · rw [if_pos hbx]
      · rw [if_neg hbx]
        exact le_of_not_lt hbx
    · exact ih _ x h1

end Analyze

namespace Analyze

/-- C7: on a non-empty orders input, `find_top_customer` returns the
member list of the winning group sorted ascending (defaulting to the
singleton of the winner when it keys no group) with its aggregated
total rounded to 2 decimals, where: per-user spending maps each user id
occurring in the orders to the sum of its paid prices; each user id
maps to its canonical id by inverting the group mapping (an id in no
group maps to itself); canonical spending at a canonical id is the sum
of the per-user spendings mapping to it; and the winner's total is
maximal among all aggregated totals. -/
theorem top_customer_spec (orders : List OrderRec) (ug : List (Nat × List Nat))
    (h : orders ≠ []) :
    ∃ tc total,
      find_top_customer orders ug =
        some (sortAsc ((alookup ug tc).getD [tc]), round2 total) ∧
      alookup (canonicalSpending (userToCanonical ug) (userSpending orders)) tc
        = some total ∧
      (∀ e ∈ canonicalSpending (userToCanonical ug) (userSpending orders),
        e.2 ≤ total) ∧
      (∀ u, alookup (userSpending orders) u =
        if u ∈ orders.map (fun o => o.user_id) then some (sumFor orders u)
        else none) ∧
      (∀ c, alookup (canonicalSpending (userToCanonical ug) (userSpending orders)) c
        = if ∃ e ∈ userSpending orders, canonOf (userToCanonical ug) e.1 = c then
            some ((((userSpending orders).filter
              (fun e => canonOf (userToCanonical ug) e.1 = c)).map
                (fun e => e.2)).sum)
          else none) ∧
      (∀ u, (∀ e ∈ ug, u ∉ e.2) → canonOf (userToCanonical ug) u = u) ∧
      ((∀ e1 ∈ ug, ∀ e2 ∈ ug, ∀ i, i ∈ e1.2 → i ∈ e2.2 → e1 = e2) →
        ∀ g ∈ ug, ∀ u ∈ g.2, canonOf (userToCanonical ug) u = g.1) := by
  have hchar : ∀ c,
      alookup (canonicalSpending (userToCanonical ug) (userSpending orders)) c
        = if ∃ e ∈ userSpending orders, canonOf (userToCanonical ug) e.1 = c then
            some ((((userSpending orders).filter
              (fun e => canonOf (userToCanonical ug) e.1 = c)).map
                (fun e => e.2)).sum)
          else none :=
    fun c => canonicalSpending_lookup (userToCanonical ug) (userSpending orders) c
  have hne : canonicalSpending (userToCanonical ug) (userSpending orders) ≠ [] := by
    obtain ⟨o0, hm⟩ := List.exists_mem_of_ne_nil orders h
    have hu0 : o0.user_id ∈ orders.map (fun o => o.user_id) :=
      List.mem_map.2 ⟨o0, hm, rfl⟩
    have hus : (o0.user_id, sumFor orders o0.user_id) ∈ userSpending orders := by
      apply List.mem_map.2
      refine ⟨o0.user_id, ?_, rfl⟩
      unfold uidsOf
      rw [sortAsc_mem, setList_mem]
      exact Or.inr hu0
    intro hnil
    have hchar0 := hchar (canonOf (userToCanonical ug) o0.user_id)
    rw [if_pos ⟨_, hus, rfl⟩, hnil] at hchar0
    exact Option.noConfusion hchar0
  obtain ⟨e, rest, hcs⟩ : ∃ e rest,
      canonicalSpending (userToCanonical ug) (userSpending orders) = e :: rest := by
    cases hcs2 : canonicalSpending (userToCanonical ug) (userSpending orders) with
    | nil => exact absurd hcs2 hne
    | cons e rest => exact ⟨e, rest, rfl⟩
  have hbestmem : argmaxFold e rest ∈
      canonicalSpending (userToCanonical ug) (userSpending orders) := by
    rw [hcs]
    rcases argmaxFold_mem rest e with h1 | h1
    · rw [h1]
      exact List.mem_cons_self _ _
    · exact List.mem_cons_of_mem _ h1
  have hnodup : (akeys (canonicalSpending (userToCanonical ug)
      (userSpending orders))).Nodup := by
    unfold canonicalSpending
    exact canonicalSpending_nodupkeys (userToCanonical ug) (userSpending orders)
      [] List.nodup_nil
  have hlook : alookup (canonicalSpending (userToCanonical ug) (userSpending orders))
      (argmaxFold e rest).1 = some (argmaxFold e rest).2 :=
    mem_alookup hnodup hbestmem
  refine ⟨(argmaxFold e rest).1, (argmaxFold e rest).2, ?_, hlook, ?_, ?_, hchar,
    ?_, ?_⟩
  · show (match canonicalSpending (userToCanonical ug) (userSpending orders) with
      | [] => none
      | e :: rest =>
        some (sortAsc ((alookup ug (argmaxFold e rest).1).getD [(argmaxFold e rest).1]),
          round2 ((alookup (canonicalSpending (userToCanonical ug) (userSpending orders))
            (argmaxFold e rest).1).getD 0))) = _
    rw [hcs]
    rw [hcs] at hlook
    show some (sortAsc ((alookup ug (argmaxFold e rest).1).getD [(argmaxFold e rest).1]),
      round2 ((alookup (e :: rest) (argmaxFold e rest).1).getD 0)) = _
    rw [hlook]
    rfl
  · intro x hx
    rw [hcs] at hx
    rcases List.mem_cons.1 hx with h1 | h1
    · rw [h1]
      exact argmaxFold_ge_init rest e
    · exact argmaxFold_ge_mem rest e x h1
  · intro u
    exact userSpending_lookup orders u
  · intro u hu
    exact canonOf_not_mem hu
  · intro hdisj g hg u hu
    exact canonOf_mem hg hu hdisj

/-- C10: when the orders input is empty the per-user spending map is
empty, and `find_top_customer` does not return a result — the source
raises a `ValueError` from `max` over the empty spending dict, modeled
here by `none`. -/
theorem top_customer_empty (ug : List (Nat × List Nat)) :
    userSpending [] = [] ∧ find_top_customer [] ug = none :=
  ⟨rfl, rfl⟩

end Analyze

namespace Analyze

/-- A small concrete record set: 101 and 102 agree on email, phone and
address (3 of 4 fields), 103 shares nothing. -/
def wUsers : List UserRec :=
  [⟨101, some "a@x.com", some "555", some "john", some "1 st"⟩,
   ⟨102, some "a@x.com", some "555", some "jon", some "1 st"⟩,
   ⟨103, none, none, some "alice", none⟩]

def wOrders : List OrderRec := [⟨101, 500⟩, ⟨102, 300⟩]

def wGroups : List (Nat × List Nat) := [(101, [101, 102])]

theorem dedup_judge_threshold_witness :
    ((wUsers.map (fun u => u.id)).Nodup) ∧
    ((∀ uf : UF, judgePairs (userData [] wUsers) uf (potentialPairs wUsers) =
      unionList uf (dedupUnionCalls wUsers)) ∧
    (∀ u v : UserRec, u ∈ wUsers → v ∈ wUsers →
      ((u.id, v.id) ∈ dedupUnionCalls wUsers ↔
        ((u.id, v.id) ∈ potentialPairs wUsers ∧ 3 ≤ matchCount u v)))) :=
  ⟨by decide, dedup_judge_threshold wUsers (by decide)⟩

theorem find_eq_iff_conn_witness :
    (1 ∈ seenIds [Op.unionOp 1 2, Op.unionOp 2 3]) ∧
    (3 ∈ seenIds [Op.unionOp 1 2, Op.unionOp 2 3]) ∧
    (∃ uf uf1 uf2 r1 r2, runOps [Op.unionOp 1 2, Op.unionOp 2 3] = some uf ∧
      UF.find uf 1 = some (uf1, r1) ∧ UF.find uf1 3 = some (uf2, r2) ∧
      (r1 = r2 ↔ Conn (unionPairs [Op.unionOp 1 2, Op.unionOp 2 3]) 1 3)) :=
  ⟨by decide, by decide,
    find_eq_iff_conn [Op.unionOp 1 2, Op.unionOp 2 3] 1 3 (by decide) (by decide)⟩

theorem dedup_candidate_pairs_witness :
    ((wUsers.map (fun u => u.id)).Nodup) ∧
    ((potentialPairs wUsers).Nodup ∧
    (∀ a b : Nat, ((a, b) ∈ potentialPairs wUsers ↔
      (a < b ∧ ∃ u v, u ∈ wUsers ∧ v ∈ wUsers ∧ u.id = a ∧ v.id = b ∧
        sharesField u v = true)))) :=
  ⟨by decide, dedup_candidate_pairs wUsers (by decide)⟩

theorem dedup_min_key_sorted_witness :
    deduplicate_users wUsers = some (2, [(101, [101, 102]), (103, [103])]) ∧
    ∀ e ∈ ([(101, [101, 102]), (103, [103])] : List (Nat × List Nat)),
      e.1 ∈ e.2 ∧ (∀ x ∈ e.2, e.1 ≤ x) ∧ List.Sorted (· ≤ ·) e.2 :=
  ⟨by decide, dedup_min_key_sorted wUsers 2 [(101, [101, 102]), (103, [103])]
    (by decide)⟩

theorem dedup_unique_count_witness :
    ((wUsers.map (fun u => u.id)).Nodup) ∧
    ∃ n ug, deduplicate_users wUsers = some (n, ug) ∧ n = ug.length ∧
      n ≤ wUsers.length ∧ (n = wUsers.length ↔ dedupUnionCalls wUsers = []) :=
  ⟨by decide, dedup_unique_count wUsers (by decide)⟩

theorem top_customer_spec_witness :
    wOrders ≠ [] ∧
    (∃ tc total,
      find_top_customer wOrders wGroups =
        some (sortAsc ((alookup wGroups tc).getD [tc]), round2 total) ∧
      alookup (canonicalSpending (userToCanonical wGroups) (userSpending wOrders)) tc
        = some total ∧
      (∀ e ∈ canonicalSpending (userToCanonical wGroups) (userSpending wOrders),
        e.2 ≤ total) ∧
      (∀ u, alookup (userSpending wOrders) u =
        if u ∈ wOrders.map (fun o => o.user_id) then some (sumFor wOrders u)
        else none) ∧
      (∀ c, alookup (canonicalSpending (userToCanonical wGroups)
          (userSpending wOrders)) c
        = if ∃ e ∈ userSpending wOrders, canonOf (userToCanonical wGroups) e.1 = c
          then
            some ((((userSpending wOrders).filter
              (fun e => canonOf (userToCanonical wGroups) e.1 = c)).map
                (fun e => e.2)).sum)
          else none) ∧
      (∀ u, (∀ e ∈ wGroups, u ∉ e.2) → canonOf (userToCanonical wGroups) u = u) ∧
      ((∀ e1 ∈ wGroups, ∀ e2 ∈ wGroups, ∀ i, i ∈ e1.2 → i ∈ e2.2 → e1 = e2) →
        ∀ g ∈ wGroups, ∀ u ∈ g.2, canonOf (userToCanonical wGroups) u = g.1)) :=
  ⟨by decide, top_customer_spec wOrders wGroups (by decide)⟩

end Analyze
